import Mathlib

/-!
Verification of the `textual` text-rendering core: a shallow embedding of
`src/color.rs`, `src/image.rs`, `src/text.rs`, `src/fontprovider.rs` and
`fastly-backend/src/fontprovider.rs`, with theorems about the compositing
engine, the layout padding arithmetic, the stripe pattern provider, the
font-variant string round trip and the font-resolution entry points.

f32 arithmetic appearing in the sources (alpha compositing, padding, stripe
widths) is modelled exactly: a float value is a rational number, and every
binary f32 operation is the exact rational operation followed by `fl`,
correct rounding to a 24-bit significand, round half to even, with unbounded
exponent (every value reached in the claims is far away from overflow and
from subnormal territory, where this model coincides with IEEE binary32).

Because the standard `Rat` operations are `@[irreducible]` (which blocks
kernel evaluation by `decide`), the model uses its own exact rational
operations `qmul`, `qadd`, `qsub`, `qdiv`, `qfloor`, `qpow2` built on
`mkRat`; the `*_eq` bridge lemmas identify them with the standard ones.
-/

namespace Textual

/-- Exact rational from numerator and denominator. -/
def qmk (n : ℤ) (d : ℕ) : ℚ := mkRat n d

/-- Exact product of rationals (kernel-reducible). -/
def qmul (a b : ℚ) : ℚ := mkRat (a.num * b.num) (a.den * b.den)

/-- Exact sum of rationals (kernel-reducible). -/
def qadd (a b : ℚ) : ℚ := mkRat (a.num * b.den + b.num * a.den) (a.den * b.den)

/-- Exact difference of rationals (kernel-reducible). -/
def qsub (a b : ℚ) : ℚ := mkRat (a.num * b.den - b.num * a.den) (a.den * b.den)

/-- Exact inverse of a rational (kernel-reducible), `qinv 0 = 0`. -/
def qinv (b : ℚ) : ℚ :=
  if b.num < 0 then mkRat (-(b.den : ℤ)) (-b.num).toNat else mkRat b.den b.num.toNat

/-- Exact quotient of rationals (kernel-reducible), `qdiv a 0 = 0`. -/
def qdiv (a b : ℚ) : ℚ := qmul a (qinv b)

/-- Floor of a rational, `⌊q⌋`, kernel-reducible. -/
def qfloor (q : ℚ) : ℤ := Int.fdiv q.num q.den

/-- Integer powers of two, `(2 : ℚ) ^ (e : ℤ)`, kernel-reducible. -/
def qpow2 (e : ℤ) : ℚ := if 0 ≤ e then qmk ((2 : ℤ) ^ e.toNat) 1 else qmk 1 (2 ^ (-e).toNat)

/-- Fuel-based binary logarithm on naturals: `nlog2Aux fuel n = ⌊log₂ n⌋`
whenever `1 ≤ n ≤ fuel`.  Structural recursion on the fuel keeps it
kernel-reducible (usable by `decide`). -/
def nlog2Aux : ℕ → ℕ → ℕ
  | 0, _ => 0
  | fuel + 1, n => if n ≤ 1 then 0 else nlog2Aux fuel (n / 2) + 1

/-- Computes `⌊log₂ n⌋` for `n ≥ 1` (and `0` at `0`). -/
def nlog2 (n : ℕ) : ℕ := nlog2Aux n n

/-- The binary exponent `⌊log₂ q⌋` of a positive rational, computed from the
logarithms of numerator and denominator with a one-step correction. -/
def qexp (q : ℚ) : ℤ :=
  let a : ℤ := nlog2 q.num.toNat
  let b : ℤ := nlog2 q.den
  let cand := a - b
  if q < qpow2 cand then cand - 1
  else if qpow2 (cand + 1) ≤ q then cand + 1
  else cand

/-- Round a rational to the nearest integer, ties to even. -/
def rne (q : ℚ) : ℤ :=
  let n := qfloor q
  let frac := qsub q (qmk n 1)
  if frac < qmk 1 2 then n
  else if qmk 1 2 < frac then n + 1
  else if n % 2 = 0 then n else n + 1

/-- Correct rounding of a positive rational to a 24-bit significand. -/
def flPos (q : ℚ) : ℚ :=
  let e : ℤ := qexp q
  qmul (qmk (rne (qmul q (qpow2 (23 - e)))) 1) (qpow2 (e - 23))

/-- Correct rounding of a rational to the nearest f32 value
(24-bit significand, round half to even, unbounded exponent). -/
def fl (q : ℚ) : ℚ :=
  if q = 0 then 0
  else if 0 < q then flPos q
  else -flPos (-q)

/-- Rust `as u8` on an f32: truncate toward zero, saturating at 0 and 255. -/
def f32toU8 (q : ℚ) : ℕ := min (qfloor q).toNat 255

/-- Rust `as usize` on an f32: truncate toward zero, saturating. -/
def f32toUsize (q : ℚ) : ℕ := min (qfloor q).toNat (2 ^ 64 - 1)

/-- Wrapping subtraction on `usize` (the release-build semantics of a Rust
`a - b`; debug builds panic on the same underflow). -/
def usizeSub (a b : ℕ) : ℕ := (a + 2 ^ 64 - b) % 2 ^ 64

/-- The nrml closure in `Image::draw_img` / `Image::mix`
(`src/image.rs`): `c as f32 / 255.0`. -/
def nrml (c : ℕ) : ℚ := fl (qdiv (qmk c 1) (qmk 255 1))

/-! ## `src/color.rs` — the Color data type of the main iteration

`Color::new` declares its parameters in the order `(r, b, g, a)` (second
parameter is the *blue* field, third the *green* field), which the struct
literal `Self { r, g, b, a }` then binds by name.  The embedding mirrors the
constructor's parameter order exactly. -/

structure Color where
  r : ℕ
  g : ℕ
  b : ℕ
  a : ℕ
  deriving DecidableEq

/-- Model of `Color::new(r, b, g, a)` from `src/color.rs` lines 24-26: the second
positional argument is named `b` and the third `g`. -/
def Color.new (r b g a : ℕ) : Color := { r := r, g := g, b := b, a := a }

def Color.TRANSPARENT : Color := Color.new 0 0 0 0
def Color.BLACK : Color := Color.new 0 0 0 255
def Color.RED : Color := Color.new 255 0 0 255
def Color.GREEN : Color := Color.new 0 255 0 255
def Color.BLUE : Color := Color.new 0 0 255 255
def Color.YELLOW : Color := Color.new 255 255 0 255
def Color.FUCHSIA : Color := Color.new 255 0 255 255
def Color.AQUA : Color := Color.new 0 255 255 255
def Color.WHITE : Color := Color.new 255 255 255 255

/-- Model of `impl From<(u8, u8, u8)> for Color` (`src/color.rs` lines 35-44):
fields are assigned positionally `r, g, b` with alpha 255. -/
def Color.fromRGB (t : ℕ × ℕ × ℕ) : Color :=
  { r := t.1, g := t.2.1, b := t.2.2, a := 255 }

/-- Model of `impl From<(u8, u8, u8, u8)> for Color` (`src/color.rs` lines 46-55). -/
def Color.fromRGBA (t : ℕ × ℕ × ℕ × ℕ) : Color :=
  { r := t.1, g := t.2.1, b := t.2.2.1, a := t.2.2.2 }

/-! ## `src/image.rs` — Image, Mask, compositing -/

/-- Model of `Image` (`src/image.rs`): a width×height RGBA buffer, 4 bytes per
pixel, row-major.  Bytes are naturals (always < 256 in real executions). -/
structure Image where
  width : ℕ
  height : ℕ
  data : List ℕ
  deriving DecidableEq

/-- Model of `Mask` (`src/image.rs`): a greyscale image, one byte per pixel. -/
structure Mask where
  width : ℕ
  height : ℕ
  data : List ℕ
  deriving DecidableEq

/-- Model of `Image::xy_to_index` (`src/image.rs` lines 149-151). -/
def Image.xy_to_index (img : Image) (x y : ℕ) : ℕ := (y * img.width + x) * 4

/-- Model of `Image::color` (`src/image.rs` lines 153-163): read the 4 bytes of
pixel `(x, y)`. -/
def Image.color (img : Image) (x y : ℕ) : Color :=
  let i := img.xy_to_index x y
  { r := img.data.getD i 0, g := img.data.getD (i + 1) 0,
    b := img.data.getD (i + 2) 0, a := img.data.getD (i + 3) 0 }

/-- Model of `Image::set_color` (`src/image.rs` lines 165-173): write the 4 bytes of
pixel `(x, y)`. -/
def Image.set_color (img : Image) (x y : ℕ) (c : Color) : Image :=
  let i := img.xy_to_index x y
  { img with data := ((((img.data.set i c.r).set (i + 1) c.g).set (i + 2) c.b).set (i + 3) c.a) }

/-- One colour channel of `Image::mix` / the `mix` closure in
`Image::draw_img` (`src/image.rs` lines 208-222 and 301-315), with every
f32 operation modelled by exact arithmetic followed by `fl`. -/
def mixComponent (iaf oaf mixedAlpha : ℚ) (under over : ℕ) : ℕ :=
  if iaf = 0 then under
  else if oaf = 0 then over
  else
    f32toU8 (fl (qmul (fl (qdiv (fl (qadd (fl (qmul (nrml over) iaf))
      (fl (qmul (fl (qmul (nrml under) oaf)) (fl (qsub (qmk 1 1) iaf)))))) mixedAlpha))
      (qmk 255 1)))

/-- Computes `mixed_alpha = img_alpha_float + our_alpha_float * (1.0 - img_alpha_float)`
(`src/image.rs` lines 206 and 299), f32 steps made explicit. -/
def mixedAlphaOf (under over : Color) : ℚ :=
  fl (qadd (nrml over.a) (fl (qmul (nrml under.a) (fl (qsub (qmk 1 1) (nrml over.a))))))

/-- Model of `Image::mix` (`src/image.rs` lines 295-323); identical arithmetic to the
inline blending in `Image::draw_img` lines 202-229, which reads all four
destination bytes before overwriting them. -/
def Image.mix (under over : Color) : Color :=
  { r := mixComponent (nrml over.a) (nrml under.a) (mixedAlphaOf under over) under.r over.r,
    g := mixComponent (nrml over.a) (nrml under.a) (mixedAlphaOf under over) under.g over.g,
    b := mixComponent (nrml over.a) (nrml under.a) (mixedAlphaOf under over) under.b over.b,
    a := f32toU8 (fl (qmul (mixedAlphaOf under over) (qmk 255 1))) }

/-- The inner `for img_x in 0..width` loop shared by `draw_img`, `mask` and
`overlay` (`src/image.rs`): `continue` on `x < 0`, `break` once
`x >= self.width`, otherwise run the per-pixel body.  The fuel argument is
`srcW - imgX`, so iteration `imgX` runs exactly when `imgX < srcW`;
structural recursion on the fuel keeps the function kernel-reducible. -/
def loopCols (body : Image → ℕ → ℕ → ℕ → ℕ → Image) (offX : ℤ) (imgY y : ℕ) :
    ℕ → ℕ → Image → Image
  | 0, _, dst => dst
  | fuel + 1, imgX, dst =>
    let x : ℤ := offX + imgX
    if x < 0 then loopCols body offX imgY y fuel (imgX + 1) dst
    else if (dst.width : ℤ) ≤ x then dst
    else loopCols body offX imgY y fuel (imgX + 1) (body dst imgX imgY x.toNat y)

/-- The outer `for img_y in 0..height` loop shared by `draw_img`, `mask` and
`overlay` (`src/image.rs`): `continue` on `y < 0`, early `return` once
`y >= self.height`, otherwise run the row.  Fuel is `srcH - imgY`. -/
def loopRows (body : Image → ℕ → ℕ → ℕ → ℕ → Image) (srcW : ℕ) (offX offY : ℤ) :
    ℕ → ℕ → Image → Image
  | 0, _, dst => dst
  | fuel + 1, imgY, dst =>
    let y : ℤ := offY + imgY
    if y < 0 then loopRows body srcW offX offY fuel (imgY + 1) dst
    else if (dst.height : ℤ) ≤ y then dst
    else loopRows body srcW offX offY fuel (imgY + 1) (loopCols body offX imgY y.toNat srcW 0 dst)

/-- The per-pixel body of `Image::draw_img` (`src/image.rs` lines 199-229):
source-over blend of source pixel `(imgX, imgY)` into destination pixel
`(x, y)`.  All four destination bytes are read before any is written, so the
four channel writes equal one `set_color` with the mixed colour. -/
def blendBody (src : Image) (dst : Image) (imgX imgY x y : ℕ) : Image :=
  dst.set_color x y (Image.mix (dst.color x y) (src.color imgX imgY))

/-- The per-pixel body of `Image::mask` (`src/image.rs` lines 253-256):
overwrite only the alpha byte with the mask's coverage value. -/
def maskBody (m : Mask) (dst : Image) (imgX imgY x y : ℕ) : Image :=
  { dst with data := dst.data.set (dst.xy_to_index x y + 3) (m.data.getD (imgY * m.width + imgX) 0) }

/-- The per-pixel body of `Image::overlay` (`src/image.rs` lines 284-290):
replace the overlay pixel's alpha by `255 - mask value`, then source-over
mix. -/
def overlayBody (ov : Image) (m : Mask) (dst : Image) (imgX imgY x y : ℕ) : Image :=
  let overColor := ov.color imgX imgY
  dst.set_color x y
    (Image.mix (dst.color x y) { overColor with a := 255 - m.data.getD (imgY * m.width + imgX) 0 })

/-- Model of `Image::draw_img` (`src/image.rs` lines 175-233). -/
def Image.draw_img (dst : Image) (img : Image) (offX offY : ℤ) : Image :=
  loopRows (blendBody img) img.width offX offY img.height 0 dst

/-- Model of `Image::mask` (`src/image.rs` lines 235-259). -/
def Image.mask (dst : Image) (m : Mask) (offX offY : ℤ) : Image :=
  loopRows (maskBody m) m.width offX offY m.height 0 dst

/-- Model of `Image::overlay` (`src/image.rs` lines 261-293): a silent no-op when the
overlay and mask dimensions differ. -/
def Image.overlay (dst : Image) (ov : Image) (m : Mask) (offX offY : ℤ) : Image :=
  if ov.width ≠ m.width ∨ ov.height ≠ m.height then dst
  else loopRows (overlayBody ov m) ov.width offX offY ov.height 0 dst

/-- Model of `Stripes` (`src/image.rs` lines 9-13). -/
structure Stripes where
  colors : List Color
  stripe_width : ℕ
  slope : ℚ
  deriving DecidableEq

/-- Rust `(y as f32 / slope) as usize` from `Stripes::color_at`.  When
`slope == 0.0` Rust produces `inf as usize = usize::MAX` for positive `y`
and `NaN as usize = 0` for `y == 0`; otherwise the f32 division rounds. -/
def slopeTerm (y : ℕ) (slope : ℚ) : ℕ :=
  if slope = 0 then (if y = 0 then 0 else 2 ^ 64 - 1)
  else f32toUsize (fl (qdiv (fl (qmk y 1)) slope))

/-- Model of `Stripes::color_at` (`src/image.rs` lines 15-22).  The division by
`stripe_width` panics when `stripe_width == 0`, and `% colors.len()` panics
when the colour list is empty; both panics are modelled by `none`. -/
def Stripes.color_at (s : Stripes) (x y : ℕ) : Option Color :=
  if s.stripe_width = 0 then none
  else if s.colors.length = 0 then none
  else some (s.colors.getD (((x + slopeTerm y s.slope) / s.stripe_width) % s.colors.length)
    (Color.new 0 0 0 0))

/-! ## `src/text.rs` — layout padding and the built-in stripe patterns -/

/-- Ceiling of a rational, `⌈q⌉`, kernel-reducible. -/
def qceil (q : ℚ) : ℤ := -Int.fdiv (-q.num) q.den

/-- Rust `.ceil() as usize` on an f32: the f32 `ceil` is exact (its result is an
exactly representable integer), then truncate-saturate. -/
def f32ceilToUsize (q : ℚ) : ℕ := min (qceil q).toNat (2 ^ 64 - 1)

/-- The padding computation of `Operation::make_image`
(`src/text.rs` lines 177-209): given the layout's f32 width and height, the
configured flat `padding` and the optional target `aspect` ratio, produce
`(horizontal_pad, vertical_pad)`.  Each f32 operation rounds through `fl`;
the `needed_padding - self.padding` subtractions are Rust `usize`
subtractions, wrapping in release builds (`usizeSub`) and panicking in
debug builds. -/
def make_image_pads (layoutW layoutH : ℚ) (padding : ℕ) (aspect : Option ℚ) : ℕ × ℕ :=
  match aspect with
  | some ratio =>
    let currentRatio := fl (qdiv layoutW layoutH)
    if currentRatio < ratio then
      let needed := f32ceilToUsize
        (fl (qsub (fl (qmul (fl (qadd layoutH (fl (qmk padding 1)))) ratio)) layoutW))
      if needed < padding then (needed, usizeSub needed padding)
      else (needed, padding)
    else if ratio < currentRatio then
      let needed := f32ceilToUsize
        (fl (qsub (fl (qdiv (fl (qadd layoutW (fl (qmk padding 1)))) ratio)) layoutH))
      if needed < padding then (usizeSub needed padding, needed)
      else (padding, needed)
    else (padding, padding)
  | none => (padding, padding)

/-- Rust `(text.fontsize / 8.0) as usize` — the `stripe_width` used by all three
built-in patterns in `Operation::pattern` (`src/text.rs` lines 358-387). -/
def patternStripeWidth (fontsize : ℚ) : ℕ := f32toUsize (fl (qdiv fontsize (qmk 8 1)))

/-- Model of `Operation::pattern` (`src/text.rs` lines 358-387): the three built-in
flag patterns, all with `stripe_width = (fontsize / 8.0) as usize` and
slope 2. -/
def Operation.pattern (fontsize : ℚ) (s : String) : Option Stripes :=
  if s = "trans" then
    some ⟨[Color.fromRGB (85, 205, 252), Color.WHITE, Color.fromRGB (247, 168, 184)],
      patternStripeWidth fontsize, qmk 2 1⟩
  else if s = "enby" then
    some ⟨[Color.fromRGB (255, 244, 48), Color.WHITE, Color.fromRGB (156, 89, 209), Color.BLACK],
      patternStripeWidth fontsize, qmk 2 1⟩
  else if s = "ace" then
    some ⟨[Color.BLACK, Color.fromRGBA (127, 127, 127, 255), Color.WHITE,
      Color.fromRGBA (100, 52, 154, 255)], patternStripeWidth fontsize, qmk 2 1⟩
  else none

/-! ## `src/fontprovider.rs` and `fastly-backend/src/fontprovider.rs` —
font weights, styles, variants, cache and provider.

External effects are passed in explicitly: `fs` maps a path to the bytes a
successful `File::open`+`read_to_end` returns, `net` maps a URL to the bytes
a successful fetch returns, and `writeOk` tells whether `File::create` +
`write_all` succeed at a path.  A `.unwrap()` panic on a failed write is
modelled by `Except.error` carrying the state at the moment of the panic.
A parsed `Font` is identified with the bytes it was parsed from
(`fontster::parse_font` is an external collaborator outside the core). -/

/-- Model of `FontWeight` (`src/fontprovider.rs` lines 378-390). -/
inductive FontWeight where
  | thin | extraLight | light | regular | medium
  | semiBold | bold | extraBold | black | extraBlack
  deriving DecidableEq

/-- Model of `FontStyle` (`src/fontprovider.rs` lines 337-342). -/
inductive FontStyle where
  | normal | italic | oblique
  deriving DecidableEq

/-- Model of `impl fmt::Display for FontWeight` (`src/fontprovider.rs` lines 444-461). -/
def FontWeight.display : FontWeight → String
  | .thin => "thin"
  | .extraLight => "extralight"
  | .light => "light"
  | .regular => "regular"
  | .medium => "medium"
  | .semiBold => "semibold"
  | .bold => "bold"
  | .extraBold => "extrabold"
  | .black => "black"
  | .extraBlack => "extrablack"

/-- Rust `str::to_lowercase` (ASCII inputs only are relevant here):
per-character lowercasing, kept structural so the kernel can evaluate it. -/
def strToLower (s : String) : String := ⟨s.data.map Char.toLower⟩

/-- Model of `impl FromStr for FontWeight` (`src/fontprovider.rs` lines 415-442):
lowercases, then matches the name aliases and numeric weights.  `none`
models the `Err(UnknownWeightName)` return. -/
def FontWeight.fromStr (s : String) : Option FontWeight :=
  match strToLower s with
  | "thin" | "100" => some .thin
  | "extralight" | "extra-light" | "ultralight" | "ultra-light" | "200" => some .extraLight
  | "light" | "300" => some .light
  | "normal" | "regular" | "400" => some .regular
  | "medium" | "500" => some .medium
  | "semibold" | "semi-bold" | "demibold" | "demi-bold" | "600" => some .semiBold
  | "bold" | "700" => some .bold
  | "extrabold" | "extra-bold" | "ultrabold" | "ultra-bold" | "800" => some .extraBold
  | "black" | "heavy" | "900" => some .black
  | "extrablack" | "extra-black" | "ultrablack" | "ultra-black" | "950" => some .extraBlack
  | _ => none

/-- Model of `impl fmt::Display for FontStyle` (`src/fontprovider.rs` lines 365-375). -/
def FontStyle.display : FontStyle → String
  | .normal => "normal"
  | .italic => "italic"
  | .oblique => "oblique"

/-- Model of `impl FromStr for FontStyle` (`src/fontprovider.rs` lines 350-363):
an exact (case-sensitive) match.  `none` models `Err(UnknownStyleName)`. -/
def FontStyle.fromStr (s : String) : Option FontStyle :=
  match s with
  | "normal" => some .normal
  | "italic" => some .italic
  | "oblique" => some .oblique
  | _ => none

/-- Model of `FontVariant` (`src/fontprovider.rs` lines 305-309). -/
structure FontVariant where
  weight : FontWeight
  style : FontStyle
  deriving DecidableEq

/-- Model of `FontVariant::default()`: `(Regular, Normal)`. -/
def FontVariant.default : FontVariant := ⟨.regular, .normal⟩

/-- Model of `impl fmt::Display for FontVariant` (`src/fontprovider.rs` lines
331-335): `"{weight} {style}"`. -/
def FontVariant.display (v : FontVariant) : String :=
  v.weight.display ++ " " ++ v.style.display

/-- Rust `str::split_once(sep)` over the character list: the pieces before
and after the first occurrence of the separator, or `none` when it does not
occur. -/
def splitOnceChar (sep : Char) : List Char → Option (List Char × List Char)
  | [] => none
  | c :: rest =>
    if c = sep then some ([], rest)
    else
      match splitOnceChar sep rest with
      | none => none
      | some (l, r) => some (c :: l, r)

/-- Rust `str::split_once(' ')`. -/
def splitOnceSpace (s : String) : Option (String × String) :=
  match splitOnceChar ' ' s.data with
  | none => none
  | some (l, r) => some (⟨l⟩, ⟨r⟩)

/-- The variant-parsing step of `FontCache::populate`
(`src/fontprovider.rs` lines 79-109): split `"{weight} {style}"` at the
first space, parse the style and then the weight. -/
def parseVariantText (s : String) : Option FontVariant :=
  match splitOnceSpace s with
  | none => none
  | some (w, st) =>
    match FontStyle.fromStr st with
    | none => none
    | some style =>
      match FontWeight.fromStr w with
      | none => none
      | some weight => some ⟨weight, style⟩

/-- Model of `FontFamily` (`src/fontprovider.rs` lines 275-278): a face name plus a
list of `(variant, path-or-URL)` pairs. -/
structure FontFamily where
  face : String
  variants : List (FontVariant × String)
  deriving DecidableEq

/-- Model of `FontFamily::variant_path` (`src/fontprovider.rs` lines 294-302):
first exact match. -/
def FontFamily.variant_path (fam : FontFamily) (v : FontVariant) : Option String :=
  (fam.variants.find? (fun p => p.1 = v)).map Prod.snd

/-- Model of `FontCache::family` / `FontProvider::family`: first family with the
given face name (exact, case-sensitive string equality). -/
def findFamily (fonts : List FontFamily) (name : String) : Option FontFamily :=
  fonts.find? (fun f => f.face = name)

/-- The family-update in `FontCache::save_font` (`src/fontprovider.rs`
lines 140-147): push onto the first family with this face, else append a
new family at the end. -/
def familyPush : List FontFamily → String → FontVariant → String → List FontFamily
  | [], name, v, path => [⟨name, [(v, path)]⟩]
  | f :: rest, name, v, path =>
    if f.face = name then { f with variants := f.variants ++ [(v, path)] } :: rest
    else f :: familyPush rest name v path

/-- Model of `FontCache` (`src/fontprovider.rs` lines 15-18). -/
structure FontCache where
  location : String
  fonts : List FontFamily
  deriving DecidableEq

/-- Model of `FontCache::variant` (`src/fontprovider.rs` lines 56-69): look the
variant up in the index and read the file's bytes (`fs`). -/
def FontCache.variant (c : FontCache) (fs : String → List ℕ) (family : String)
    (v : FontVariant) : Option (List ℕ) :=
  match findFamily c.fonts family with
  | some fam =>
    match fam.variant_path v with
    | some path => some (fs path)
    | none => none
  | none => none

/-- The deterministic cache filename of `FontCache::save_font`
(`src/fontprovider.rs` line 133): `"{family}-{weight} {style}.ttf"` under
the cache directory. -/
def saveFontPath (location family : String) (v : FontVariant) : String :=
  location ++ "/" ++ family ++ "-" ++ v.weight.display ++ " " ++ v.style.display ++ ".ttf"

/-- Model of `FontCache::save_font` (`src/fontprovider.rs` lines 130-150): write the
file, then update the in-memory index.  `File::create(..).unwrap()` /
`write_all(..).unwrap()` panic on a failed write — modelled by
`Except.error` carrying the cache state at the panic, which is the
unmodified cache because the index update comes after the writes. -/
def FontCache.save_font (c : FontCache) (writeOk : String → Bool) (family : String)
    (v : FontVariant) : Except FontCache FontCache :=
  let path := saveFontPath c.location family v
  if writeOk path then
    Except.ok { c with fonts := familyPush c.fonts family v path }
  else
    Except.error c

/-- Model of `FontProvider` (`src/fontprovider.rs` lines 153-157): the default font,
the Google-sourced catalog and the on-disk cache. -/
structure FontProvider where
  pdefault : List ℕ
  fonts : List FontFamily
  font_cache : FontCache
  deriving DecidableEq

/-- Model of `FontProvider::variant` of the main iteration (`src/fontprovider.rs`
lines 193-216).  Returns the served font bytes, the updated provider and
the list of URLs fetched over the network; `Except.error` carries the
provider state when a cache-persist panic aborts the call. -/
def FontProvider.variant (p : FontProvider) (fs : String → List ℕ) (net : String → List ℕ)
    (writeOk : String → Bool) (family : String) (v : FontVariant) :
    Except FontProvider (List ℕ × FontProvider × List String) :=
  match p.font_cache.variant fs family v with
  | some font => Except.ok (font, p, [])
  | none =>
    match findFamily p.fonts family with
    | some fam =>
      match fam.variant_path v with
      | some url =>
        let buffer := net url
        match p.font_cache.save_font writeOk family v with
        | Except.ok cache2 => Except.ok (buffer, { p with font_cache := cache2 }, [url])
        | Except.error cacheAtPanic =>
          Except.error { p with font_cache := cacheAtPanic }
      | none => Except.ok (p.pdefault, p, [])
    | none => Except.ok (p.pdefault, p, [])

/-- Model of `FontProvider` of the fastly-backend iteration
(`fastly-backend/src/fontprovider.rs` lines 167-171): no default font. -/
structure FontProviderFB where
  fonts : List FontFamily
  font_cache : FontCache
  deriving DecidableEq

/-- Model of `FontProvider::variant` of the fastly-backend iteration
(`fastly-backend/src/fontprovider.rs` lines 221-244): returns
`Option<Vec<u8>>`, with `none` when the variant is in neither the cache nor
the catalog. -/
def FontProviderFB.variant (p : FontProviderFB) (fs : String → List ℕ)
    (net : String → List ℕ) (writeOk : String → Bool) (family : String) (v : FontVariant) :
    Except FontProviderFB (Option (List ℕ) × FontProviderFB × List String) :=
  match p.font_cache.variant fs family v with
  | some font => Except.ok (some font, p, [])
  | none =>
    match findFamily p.fonts family with
    | some fam =>
      match fam.variant_path v with
      | some url =>
        let buffer := net url
        match p.font_cache.save_font writeOk family v with
        | Except.ok cache2 => Except.ok (some buffer, { p with font_cache := cache2 }, [url])
        | Except.error cacheAtPanic =>
          Except.error { p with font_cache := cacheAtPanic }
      | none => Except.ok (none, p, [])
    | none => Except.ok (none, p, [])

/-- Whether the catalog (`FontProvider::family` + `variant_path`) can
resolve `(family, v)` to a URL. -/
def catalogHas (fonts : List FontFamily) (family : String) (v : FontVariant) : Bool :=
  match findFamily fonts family with
  | some fam => (fam.variant_path v).isSome
  | none => false

/-- Dimension-preservation hypothesis on a loop body. -/
def BodyDims (body : Image → ℕ → ℕ → ℕ → ℕ → Image) : Prop :=
  ∀ d imgX imgY x y, (body d imgX imgY x y).width = d.width ∧
    (body d imgX imgY x y).height = d.height ∧
    (body d imgX imgY x y).data.length = d.data.length

/-- Footprint hypothesis on a loop body: a body invocation writing pixel
`(x, y)` does not change the colour of any other pixel. -/
def BodyFoot (body : Image → ℕ → ℕ → ℕ → ℕ → Image) : Prop :=
  ∀ d imgX imgY x y x' y', x < d.width → x' < d.width → ¬(x = x' ∧ y = y') →
    (body d imgX imgY x y).color x' y' = d.color x' y'

/-- Concrete providers for the counterexamples and witnesses. -/
def p0main : FontProvider := ⟨[1, 2, 3], [], ⟨"cache", []⟩⟩

def pf0 : FontProviderFB := ⟨[], ⟨"cache", []⟩⟩

def p1main : FontProvider := ⟨[9], [⟨"Fam", [(FontVariant.default, "http://u")]⟩], ⟨"c", []⟩⟩

set_option maxRecDepth 100000

theorem qmk_eq (n : ℤ) (d : ℕ) : qmk n d = (n : ℚ) / (d : ℚ) := by
  rw [qmk]; exact Rat.mkRat_eq_div ..

theorem qmul_eq (a b : ℚ) : qmul a b = a * b := by
  conv_rhs => rw [← Rat.num_div_den a, ← Rat.num_div_den b]
  rw [div_mul_div_comm, qmul, Rat.mkRat_eq_div]
  push_cast
  ring_nf

theorem qadd_eq (a b : ℚ) : qadd a b = a + b := by
  conv_rhs => rw [← Rat.num_div_den a, ← Rat.num_div_den b]
  rw [div_add_div _ _ (by positivity) (by positivity), qadd, Rat.mkRat_eq_div]
  push_cast
  ring_nf

theorem qsub_eq (a b : ℚ) : qsub a b = a - b := by
  conv_rhs => rw [← Rat.num_div_den a, ← Rat.num_div_den b]
  rw [div_sub_div _ _ (by positivity) (by positivity), qsub, Rat.mkRat_eq_div]
  push_cast
  ring_nf

theorem qinv_eq (b : ℚ) : qinv b = b⁻¹ := by
  rw [qinv, Rat.inv_def']
  rcases lt_trichotomy b.num 0 with h | h | h
  · rw [if_pos h, Rat.mkRat_eq_divInt, Int.toNat_of_nonneg (by omega : (0:ℤ) ≤ -b.num)]
    rw [Rat.divInt_neg]
    simp
  · rw [if_neg (by omega), Rat.mkRat_eq_divInt, h]
    simp
  · rw [if_neg (by omega), Rat.mkRat_eq_divInt, Int.toNat_of_nonneg (by omega)]

theorem qdiv_eq (a b : ℚ) : qdiv a b = a / b := by
  rw [qdiv, qmul_eq, qinv_eq, div_eq_mul_inv]

theorem qfloor_eq (q : ℚ) : qfloor q = ⌊q⌋ := by
  rw [qfloor, Rat.floor_def, Int.fdiv_eq_ediv _ (by positivity)]

theorem qpow2_eq (e : ℤ) : qpow2 e = (2 : ℚ) ^ e := by
  rw [qpow2]
  split
  · next h =>
    rw [qmk_eq]
    push_cast
    rw [← zpow_natCast (2:ℚ) e.toNat, Int.toNat_of_nonneg h]
    simp
  · next h =>
    rw [qmk_eq]
    push_cast
    rw [← zpow_natCast (2:ℚ) (-e).toNat, Int.toNat_of_nonneg (by omega)]
    rw [zpow_neg]
    simp

/-- The rounding `fl` is idempotent on the 256 normalized byte values `fl (a/255)`. -/
theorem fl_nrml_idem : ∀ a : Fin 256, fl (nrml a.1) = nrml a.1 := by decide

/-- The byte round trip through f32 normalization:
`((a as f32 / 255.0) * 255.0) as u8 = a` for every byte `a`. -/
theorem nrml_roundtrip : ∀ a : Fin 256, f32toU8 (fl (qmul (nrml a.1) (qmk 255 1))) = a.1 := by
  decide

/-! ## Helper lemmas: list bytes, pixel indices, set/get -/

theorem getD_set_ne (l : List ℕ) (v : ℕ) {i j : ℕ} (h : i ≠ j) :
    (l.set i v).getD j 0 = l.getD j 0 := by
  simp [List.getD_eq_getElem?_getD, List.getElem?_set_ne h]

theorem getD_set_self (l : List ℕ) (v : ℕ) {i : ℕ} (h : i < l.length) :
    (l.set i v).getD i 0 = v := by
  simp [List.getD_eq_getElem?_getD, List.getElem?_set_self h]

theorem set_getD_self (l : List ℕ) (i : ℕ) : l.set i (l.getD i 0) = l := by
  induction l generalizing i with
  | nil => rfl
  | cons hd tl ih =>
    cases i with
    | zero => rfl
    | succ n => simpa using ih n

theorem getD_lt_256 (l : List ℕ) (h : ∀ b ∈ l, b < 256) (i : ℕ) : l.getD i 0 < 256 := by
  rw [List.getD_eq_getElem?_getD]
  cases h2 : l[i]? with
  | none => simp
  | some b =>
    have := List.getElem?_mem h2
    simpa using h b this

theorem pixel_index_ne {W x x' y y' : ℕ} (hx : x < W) (hx' : x' < W)
    (hne : ¬(x = x' ∧ y = y')) : y * W + x ≠ y' * W + x' := by
  intro he
  have hW : 0 < W := Nat.lt_of_le_of_lt (Nat.zero_le x) hx
  have h1 : (x + W * y) / W = y := by
    rw [Nat.add_mul_div_left _ _ hW, Nat.div_eq_of_lt hx, Nat.zero_add]
  have h2 : (x' + W * y') / W = y' := by
    rw [Nat.add_mul_div_left _ _ hW, Nat.div_eq_of_lt hx', Nat.zero_add]
  have h3 : (x + W * y) % W = x := by
    rw [Nat.add_mul_mod_self_left, Nat.mod_eq_of_lt hx]
  have h4 : (x' + W * y') % W = x' := by
    rw [Nat.add_mul_mod_self_left, Nat.mod_eq_of_lt hx']
  have he' : x + W * y = x' + W * y' := by
    rw [Nat.mul_comm W y, Nat.mul_comm W y']
    omega
  rw [he'] at h1 h3
  exact hne ⟨h3.symm.trans h4, h1.symm.trans h2⟩

/-- Dimensions and buffer length are preserved by `set_color`. -/
theorem set_color_dims (img : Image) (x y : ℕ) (c : Color) :
    (img.set_color x y c).width = img.width ∧ (img.set_color x y c).height = img.height ∧
      (img.set_color x y c).data.length = img.data.length := by
  simp [Image.set_color]

/-- Writing a pixel's own current colour back is a no-op. -/
theorem set_color_self (img : Image) (x y : ℕ) :
    img.set_color x y (img.color x y) = img := by
  cases img with
  | mk w h d =>
    simp only [Image.set_color, Image.color, Image.xy_to_index]
    rw [set_getD_self, set_getD_self, set_getD_self, set_getD_self]

/-- A byte outside the four bytes of pixel `(x, y)` is untouched by
`set_color`. -/
theorem set_color_getD_other (img : Image) (x y : ℕ) (c : Color) (j : ℕ)
    (h : ∀ k, k < 4 → j ≠ img.xy_to_index x y + k) :
    (img.set_color x y c).data.getD j 0 = img.data.getD j 0 := by
  simp only [Image.set_color]
  rw [getD_set_ne _ _ (fun he => h 3 (by omega) he.symm),
    getD_set_ne _ _ (fun he => h 2 (by omega) he.symm),
    getD_set_ne _ _ (fun he => h 1 (by omega) he.symm),
    getD_set_ne _ _ (fun he => (h 0 (by omega)) (by omega))]

/-- Model of `set_color` at one pixel does not change the colour read at a different
pixel (both x-coordinates in range). -/
theorem color_set_color_ne (img : Image) (x y x' y' : ℕ) (c : Color)
    (hx : x < img.width) (hx' : x' < img.width) (hne : ¬(x = x' ∧ y = y')) :
    (img.set_color x y c).color x' y' = img.color x' y' := by
  have hpix : y * img.width + x ≠ y' * img.width + x' := pixel_index_ne hx hx' hne
  have hwidth : (img.set_color x y c).width = img.width := (set_color_dims img x y c).1
  simp only [Image.color, Image.xy_to_index, hwidth]
  have hk : ∀ k, k < 4 →
      (img.set_color x y c).data.getD ((y' * img.width + x') * 4 + k) 0
        = img.data.getD ((y' * img.width + x') * 4 + k) 0 := by
    intro k hklt
    apply set_color_getD_other
    intro k2 hk2 he
    simp only [Image.xy_to_index] at he
    omega
  rw [show (y' * img.width + x') * 4 = (y' * img.width + x') * 4 + 0 by omega] at hk ⊢
  rw [hk 0 (by omega), hk 1 (by omega), hk 2 (by omega), hk 3 (by omega)]

/-- Reading back the pixel just written (when the pixel lies inside the
buffer). -/
theorem color_set_color_self (img : Image) (x y : ℕ) (c : Color)
    (h : img.xy_to_index x y + 3 < img.data.length) :
    (img.set_color x y c).color x y = c := by
  obtain ⟨cr, cg, cb, ca⟩ := c
  cases img with
  | mk w ht d =>
    simp only [Image.set_color, Image.color, Image.xy_to_index] at h ⊢
    congr 1
    · rw [getD_set_ne _ _ (by omega), getD_set_ne _ _ (by omega), getD_set_ne _ _ (by omega),
        getD_set_self _ _ (by omega)]
    · rw [getD_set_ne _ _ (by omega), getD_set_ne _ _ (by omega),
        getD_set_self _ _ (by simp only [List.length_set]; omega)]
    · rw [getD_set_ne _ _ (by omega),
        getD_set_self _ _ (by simp only [List.length_set]; omega)]
    · rw [getD_set_self _ _ (by simp only [List.length_set]; omega)]

/-! ## Mixing lemmas: opaque and transparent sources -/

theorem fl0 : fl 0 = 0 := by decide

theorem fl1 : fl 1 = 1 := by decide

/-- With a fully opaque source (`over.a = 255`) the mixed alpha is exactly 1. -/
theorem mixedAlphaOfFullAlpha (under over : Color) (ha : over.a = 255) :
    mixedAlphaOf under over = 1 := by
  unfold mixedAlphaOf
  rw [ha]
  rw [show nrml 255 = 1 by decide]
  rw [show fl (qsub (qmk 1 1) 1) = 0 by decide]
  rw [show qmul (nrml under.a) 0 = 0 by rw [qmul_eq, mul_zero], fl0]
  rw [show qadd (1 : ℚ) 0 = 1 by rw [qadd_eq, add_zero], fl1]

/-- With a fully transparent source (`over.a = 0`) the mixed alpha is exactly
the destination's normalized alpha. -/
theorem mixedAlphaOf_transparent (under over : Color) (ha : over.a = 0)
    (hu : under.a < 256) : mixedAlphaOf under over = nrml under.a := by
  unfold mixedAlphaOf
  rw [ha]
  rw [show nrml 0 = 0 by decide]
  rw [show qsub (qmk 1 1) 0 = 1 by decide, fl1]
  rw [show qmul (nrml under.a) 1 = nrml under.a by rw [qmul_eq, mul_one]]
  rw [fl_nrml_idem ⟨under.a, hu⟩]
  rw [show qadd (0 : ℚ) (nrml under.a) = nrml under.a by rw [qadd_eq, zero_add]]
  exact fl_nrml_idem ⟨under.a, hu⟩

/-- With `iaf = 1` and `mixedAlpha = 1` a mixed channel equals the source
channel byte exactly: the float round trip truncates back to `over`. -/
theorem mixComponentFullAlpha (oafB under over : ℕ) (hover : over < 256) :
    mixComponent 1 (nrml oafB) 1 under over = over := by
  unfold mixComponent
  rw [if_neg one_ne_zero]
  by_cases h : nrml oafB = 0
  · rw [if_pos h]
  · rw [if_neg h]
    rw [show qmul (nrml over) 1 = nrml over by rw [qmul_eq, mul_one]]
    rw [fl_nrml_idem ⟨over, hover⟩]
    rw [show fl (qsub (qmk 1 1) 1) = 0 by decide]
    rw [show qmul (fl (qmul (nrml under) (nrml oafB))) 0 = 0 by rw [qmul_eq, mul_zero], fl0]
    rw [show qadd (nrml over) 0 = nrml over by rw [qadd_eq, add_zero]]
    rw [fl_nrml_idem ⟨over, hover⟩]
    rw [show qdiv (nrml over) 1 = nrml over by rw [qdiv_eq, div_one]]
    rw [fl_nrml_idem ⟨over, hover⟩]
    exact nrml_roundtrip ⟨over, hover⟩

/-- Blending a fully opaque source pixel replaces the destination pixel with
the source's RGB at alpha 255, whatever the destination held. -/
theorem mixFullAlpha (under over : Color) (ha : over.a = 255) (hr : over.r < 256)
    (hg : over.g < 256) (hb : over.b < 256) :
    Image.mix under over = { r := over.r, g := over.g, b := over.b, a := 255 } := by
  unfold Image.mix
  rw [mixedAlphaOfFullAlpha under over ha, ha]
  rw [show nrml 255 = 1 by decide]
  rw [mixComponentFullAlpha under.a under.r over.r hr,
    mixComponentFullAlpha under.a under.g over.g hg,
    mixComponentFullAlpha under.a under.b over.b hb]
  rw [show f32toU8 (fl (qmul 1 (qmk 255 1))) = 255 by decide]

/-- Blending a fully transparent source pixel leaves the destination pixel
unchanged byte for byte (the alpha byte survives its float round trip). -/
theorem mix_transparent (under over : Color) (ha : over.a = 0)
    (hu : under.a < 256) : Image.mix under over = under := by
  unfold Image.mix
  rw [mixedAlphaOf_transparent under over ha hu, ha]
  rw [show nrml 0 = 0 by decide]
  unfold mixComponent
  rw [if_pos rfl, if_pos rfl, if_pos rfl]
  rw [nrml_roundtrip ⟨under.a, hu⟩]

/-! ## Loop lemmas

Generic facts about `loopCols`/`loopRows`, parameterized by dimension
preservation (`hdims`) and footprint (`hfoot`) hypotheses on the body. -/

/-- Model of `y * W + x < W * H` for in-range pixel coordinates. -/
theorem pix_lt {W H x y : ℕ} (hx : x < W) (hy : y < H) : y * W + x < W * H := by
  calc y * W + x < y * W + W := by omega
  _ = (y + 1) * W := by ring
  _ ≤ H * W := Nat.mul_le_mul_right _ (by omega)
  _ = W * H := Nat.mul_comm ..

/-- If the body fixes `dst` at every reachable iteration, the column loop is
the identity. -/
theorem loopCols_id {body : Image → ℕ → ℕ → ℕ → ℕ → Image} {offX : ℤ} {imgY y : ℕ}
    (fuel imgX : ℕ) (dst : Image)
    (hbody : ∀ imgX' x', imgX ≤ imgX' → imgX' < imgX + fuel →
      body dst imgX' imgY x' y = dst) :
    loopCols body offX imgY y fuel imgX dst = dst := by
  induction fuel generalizing imgX with
  | zero => rfl
  | succ fuel ih =>
    simp only [loopCols]
    split
    · exact ih (imgX + 1) (fun imgX' x' hg1 hg2 => hbody imgX' x' (by omega) (by omega))
    · split
      · rfl
      · rw [hbody imgX _ (le_refl _) (by omega)]
        exact ih (imgX + 1) (fun imgX' x' hg1 hg2 => hbody imgX' x' (by omega) (by omega))

/-- If each reachable row's column loop fixes `dst`, the row loop is the
identity. -/
theorem loopRows_cols_id {body : Image → ℕ → ℕ → ℕ → ℕ → Image} {srcW : ℕ} {offX offY : ℤ}
    (fuel imgY : ℕ) (dst : Image)
    (hrow : ∀ imgY' y', imgY ≤ imgY' → imgY' < imgY + fuel →
      loopCols body offX imgY' y' srcW 0 dst = dst) :
    loopRows body srcW offX offY fuel imgY dst = dst := by
  induction fuel generalizing imgY with
  | zero => rfl
  | succ fuel ih =>
    simp only [loopRows]
    split
    · exact ih (imgY + 1) (fun imgY' y' hg1 hg2 => hrow imgY' y' (by omega) (by omega))
    · split
      · rfl
      · rw [hrow imgY _ (le_refl _) (by omega)]
        exact ih (imgY + 1) (fun imgY' y' hg1 hg2 => hrow imgY' y' (by omega) (by omega))

/-- If the body fixes `dst` at every reachable iteration, the nested loops
are the identity. -/
theorem loopRows_id {body : Image → ℕ → ℕ → ℕ → ℕ → Image} {srcW : ℕ} {offX offY : ℤ}
    (fuel imgY : ℕ) (dst : Image)
    (hbody : ∀ imgX' imgY' x' y', imgX' < srcW → imgY ≤ imgY' → imgY' < imgY + fuel →
      body dst imgX' imgY' x' y' = dst) :
    loopRows body srcW offX offY fuel imgY dst = dst :=
  loopRows_cols_id fuel imgY dst (fun imgY' y' h1 h2 =>
    loopCols_id srcW 0 dst (fun imgX' x' _ hx => hbody imgX' imgY' x' y' (by omega) h1 h2))

/-- A column loop whose every `x` stays negative touches nothing. -/
theorem loopCols_all_neg {body : Image → ℕ → ℕ → ℕ → ℕ → Image} {offX : ℤ} {imgY y : ℕ}
    (fuel imgX : ℕ) (dst : Image) (h : offX + ((imgX + fuel : ℕ) : ℤ) ≤ 0) :
    loopCols body offX imgY y fuel imgX dst = dst := by
  induction fuel generalizing imgX with
  | zero => rfl
  | succ fuel ih =>
    simp only [loopCols]
    rw [if_pos (by push_cast at h ⊢; omega : offX + (imgX : ℤ) < 0)]
    exact ih (imgX + 1) (by push_cast at h ⊢; omega)

/-- A column loop starting at-or-beyond the right edge breaks immediately. -/
theorem loopCols_x_overflow {body : Image → ℕ → ℕ → ℕ → ℕ → Image} {offX : ℤ} {imgY y : ℕ}
    (fuel imgX : ℕ) (dst : Image)
    (h0 : 0 ≤ offX + (imgX : ℤ)) (h : (dst.width : ℤ) ≤ offX + imgX) :
    loopCols body offX imgY y fuel imgX dst = dst := by
  cases fuel with
  | zero => rfl
  | succ fuel =>
    simp only [loopCols]
    rw [if_neg (by omega), if_pos h]

/-- A row loop whose every `y` stays negative touches nothing. -/
theorem loopRows_all_neg {body : Image → ℕ → ℕ → ℕ → ℕ → Image} {srcW : ℕ} {offX offY : ℤ}
    (fuel imgY : ℕ) (dst : Image) (h : offY + ((imgY + fuel : ℕ) : ℤ) ≤ 0) :
    loopRows body srcW offX offY fuel imgY dst = dst := by
  induction fuel generalizing imgY with
  | zero => rfl
  | succ fuel ih =>
    simp only [loopRows]
    rw [if_pos (by push_cast at h ⊢; omega : offY + (imgY : ℤ) < 0)]
    exact ih (imgY + 1) (by push_cast at h ⊢; omega)

/-- A row loop starting at-or-beyond the bottom edge returns immediately. -/
theorem loopRows_y_overflow {body : Image → ℕ → ℕ → ℕ → ℕ → Image} {srcW : ℕ} {offX offY : ℤ}
    (fuel imgY : ℕ) (dst : Image)
    (h0 : 0 ≤ offY + (imgY : ℤ)) (h : (dst.height : ℤ) ≤ offY + imgY) :
    loopRows body srcW offX offY fuel imgY dst = dst := by
  cases fuel with
  | zero => rfl
  | succ fuel =>
    simp only [loopRows]
    rw [if_neg (by omega), if_pos h]

theorem loopCols_dims {body : Image → ℕ → ℕ → ℕ → ℕ → Image} (hdims : BodyDims body)
    {offX : ℤ} {imgY y : ℕ} (fuel imgX : ℕ) (dst : Image) :
    (loopCols body offX imgY y fuel imgX dst).width = dst.width ∧
    (loopCols body offX imgY y fuel imgX dst).height = dst.height ∧
    (loopCols body offX imgY y fuel imgX dst).data.length = dst.data.length := by
  induction fuel generalizing imgX dst with
  | zero => exact ⟨rfl, rfl, rfl⟩
  | succ fuel ih =>
    simp only [loopCols]
    split
    · exact ih (imgX + 1) dst
    · split
      · exact ⟨rfl, rfl, rfl⟩
      · have hb := hdims dst imgX imgY (offX + (imgX : ℤ)).toNat y
        have hr := ih (imgX + 1) (body dst imgX imgY (offX + (imgX : ℤ)).toNat y)
        exact ⟨hr.1.trans hb.1, hr.2.1.trans hb.2.1, hr.2.2.trans hb.2.2⟩

theorem loopRows_dims {body : Image → ℕ → ℕ → ℕ → ℕ → Image} (hdims : BodyDims body)
    {srcW : ℕ} {offX offY : ℤ} (fuel imgY : ℕ) (dst : Image) :
    (loopRows body srcW offX offY fuel imgY dst).width = dst.width ∧
    (loopRows body srcW offX offY fuel imgY dst).height = dst.height ∧
    (loopRows body srcW offX offY fuel imgY dst).data.length = dst.data.length := by
  induction fuel generalizing imgY dst with
  | zero => exact ⟨rfl, rfl, rfl⟩
  | succ fuel ih =>
    simp only [loopRows]
    split
    · exact ih (imgY + 1) dst
    · split
      · exact ⟨rfl, rfl, rfl⟩
      · have hb := @loopCols_dims body hdims offX imgY (offY + (imgY : ℤ)).toNat srcW 0 dst
        have hr := ih (imgY + 1) (loopCols body offX imgY (offY + (imgY : ℤ)).toNat srcW 0 dst)
        exact ⟨hr.1.trans hb.1, hr.2.1.trans hb.2.1, hr.2.2.trans hb.2.2⟩

/-- Pixels strictly left of the loop's write frontier (or on另 a different
row) are preserved by the column loop. -/
theorem loopCols_color_preserve {body : Image → ℕ → ℕ → ℕ → ℕ → Image}
    (hdims : BodyDims body) (hfoot : BodyFoot body) {offX : ℤ} {imgY y : ℕ}
    (fuel imgX : ℕ) (dst : Image) (x' y' : ℕ)
    (hx' : x' < dst.width) (hcase : y' ≠ y ∨ (x' : ℤ) < offX + imgX) :
    (loopCols body offX imgY y fuel imgX dst).color x' y' = dst.color x' y' := by
  induction fuel generalizing imgX dst with
  | zero => rfl
  | succ fuel ih =>
    simp only [loopCols]
    by_cases hneg : offX + (imgX : ℤ) < 0
    · rw [if_pos hneg]
      exact ih (imgX + 1) dst hx' (hcase.imp id (fun hlt => by omega))
    · rw [if_neg hneg]
      by_cases hov : (dst.width : ℤ) ≤ offX + imgX
      · rw [if_pos hov]
      · rw [if_neg hov]
        have hdim1 := hdims dst imgX imgY (offX + (imgX : ℤ)).toNat y
        have hstep : (body dst imgX imgY (offX + (imgX : ℤ)).toNat y).color x' y'
            = dst.color x' y' := by
          apply hfoot
          · omega
          · exact hx'
          · rintro ⟨hxx, hyy⟩
            rcases hcase with hcy | hcx
            · exact hcy hyy.symm
            · omega
        exact (ih (imgX + 1) _ (hdim1.1 ▸ hx')
          (hcase.imp id (fun hlt => by omega))).trans hstep

/-- Pixels on rows strictly above the loop's row frontier are preserved by
the row loop. -/
theorem loopRows_color_preserve {body : Image → ℕ → ℕ → ℕ → ℕ → Image}
    (hdims : BodyDims body) (hfoot : BodyFoot body) {srcW : ℕ} {offX offY : ℤ}
    (fuel imgY : ℕ) (dst : Image) (x' y' : ℕ)
    (hx' : x' < dst.width) (hy' : (y' : ℤ) < offY + imgY) :
    (loopRows body srcW offX offY fuel imgY dst).color x' y' = dst.color x' y' := by
  induction fuel generalizing imgY dst with
  | zero => rfl
  | succ fuel ih =>
    simp only [loopRows]
    by_cases hneg : offY + (imgY : ℤ) < 0
    · rw [if_pos hneg]
      exact ih (imgY + 1) dst hx' (by omega)
    · rw [if_neg hneg]
      by_cases hov : (dst.height : ℤ) ≤ offY + imgY
      · rw [if_pos hov]
      · rw [if_neg hov]
        have hdim1 := @loopCols_dims body hdims offX imgY (offY + (imgY : ℤ)).toNat srcW 0 dst
        have hstep : (loopCols body offX imgY (offY + (imgY : ℤ)).toNat srcW 0 dst).color x' y'
            = dst.color x' y' :=
          @loopCols_color_preserve body hdims hfoot offX imgY (offY + (imgY : ℤ)).toNat
            srcW 0 dst x' y' hx' (Or.inl (by omega))
        exact (ih (imgY + 1) _ (hdim1.1 ▸ hx') (by omega)).trans hstep

/-- The value of the target pixel after the column loop: pixel
`(offX+imgXt, y)` is written exactly once, by iteration `imgXt`, and the
write transforms the pixel's current colour by `F`. -/
theorem loopCols_color_target {body : Image → ℕ → ℕ → ℕ → ℕ → Image}
    (hdims : BodyDims body) (hfoot : BodyFoot body) {offX : ℤ} {imgY y : ℕ}
    (imgXt : ℕ) (F : Color → Color) (W0 L0 : ℕ)
    (hval : ∀ d : Image, d.width = W0 → d.data.length = L0 →
      (body d imgXt imgY (offX + (imgXt : ℤ)).toNat y).color (offX + (imgXt : ℤ)).toNat y
        = F (d.color (offX + (imgXt : ℤ)).toNat y))
    (fuel imgX : ℕ) (dst : Image)
    (hW : dst.width = W0) (hL : dst.data.length = L0)
    (h1 : imgX ≤ imgXt) (h2 : imgXt < imgX + fuel)
    (hx0 : 0 ≤ offX + (imgXt : ℤ)) (hx1 : offX + (imgXt : ℤ) < W0) :
    (loopCols body offX imgY y fuel imgX dst).color (offX + (imgXt : ℤ)).toNat y
      = F (dst.color (offX + (imgXt : ℤ)).toNat y) := by
  induction fuel generalizing imgX dst with
  | zero => exact absurd h2 (by omega)
  | succ fuel ih =>
    simp only [loopCols]
    by_cases heq : imgX = imgXt
    · subst heq
      rw [if_neg (by omega), if_neg (by omega : ¬ (dst.width : ℤ) ≤ offX + imgX)]
      have hdim1 := hdims dst imgX imgY (offX + (imgX : ℤ)).toNat y
      have hv : (body dst imgX imgY (offX + (imgX : ℤ)).toNat y).color (offX + (imgX : ℤ)).toNat y
          = F (dst.color (offX + (imgX : ℤ)).toNat y) := hval dst hW hL
      have hpres := @loopCols_color_preserve body hdims hfoot offX imgY y fuel (imgX + 1)
        (body dst imgX imgY (offX + (imgX : ℤ)).toNat y) (offX + (imgX : ℤ)).toNat y
        (by rw [hdim1.1, hW]; omega) (Or.inr (by omega))
      rw [hpres, hv]
    · have hlt : imgX < imgXt := by omega
      by_cases hneg : offX + (imgX : ℤ) < 0
      · rw [if_pos hneg]
        exact ih (imgX + 1) dst hW hL (by omega) (by omega)
      · rw [if_neg hneg]
        rw [if_neg (by omega : ¬ (dst.width : ℤ) ≤ offX + imgX)]
        have hdim1 := hdims dst imgX imgY (offX + (imgX : ℤ)).toNat y
        have hstep : (body dst imgX imgY (offX + (imgX : ℤ)).toNat y).color
            (offX + (imgXt : ℤ)).toNat y = dst.color (offX + (imgXt : ℤ)).toNat y := by
          apply hfoot
          · omega
          · omega
          · rintro ⟨hxx, -⟩
            omega
        exact (ih (imgX + 1) _ (hdim1.1.trans hW) (hdim1.2.2.trans hL)
          (by omega) (by omega)).trans (by rw [hstep])

/-- The value of the target pixel after the nested loops: pixel
`(offX+imgXt, offY+imgYt)` is written exactly once, by iteration
`(imgXt, imgYt)`, and the write transforms the pixel's current colour by
`F`. -/
theorem loopRows_color_target {body : Image → ℕ → ℕ → ℕ → ℕ → Image}
    (hdims : BodyDims body) (hfoot : BodyFoot body) {srcW : ℕ} {offX offY : ℤ}
    (imgXt imgYt : ℕ) (F : Color → Color) (W0 H0 L0 : ℕ)
    (hval : ∀ d : Image, d.width = W0 → d.data.length = L0 →
      (body d imgXt imgYt (offX + (imgXt : ℤ)).toNat (offY + (imgYt : ℤ)).toNat).color
          (offX + (imgXt : ℤ)).toNat (offY + (imgYt : ℤ)).toNat
        = F (d.color (offX + (imgXt : ℤ)).toNat (offY + (imgYt : ℤ)).toNat))
    (fuel imgY : ℕ) (dst : Image)
    (hW : dst.width = W0) (hH : dst.height = H0) (hL : dst.data.length = L0)
    (h1 : imgY ≤ imgYt) (h2 : imgYt < imgY + fuel) (hxs : imgXt < srcW)
    (hx0 : 0 ≤ offX + (imgXt : ℤ)) (hx1 : offX + (imgXt : ℤ) < W0)
    (hy0 : 0 ≤ offY + (imgYt : ℤ)) (hy1 : offY + (imgYt : ℤ) < H0) :
    (loopRows body srcW offX offY fuel imgY dst).color
        (offX + (imgXt : ℤ)).toNat (offY + (imgYt : ℤ)).toNat
      = F (dst.color (offX + (imgXt : ℤ)).toNat (offY + (imgYt : ℤ)).toNat) := by
  induction fuel generalizing imgY dst with
  | zero => exact absurd h2 (by omega)
  | succ fuel ih =>
    simp only [loopRows]
    by_cases heq : imgY = imgYt
    · subst heq
      rw [if_neg (by omega), if_neg (by omega : ¬ (dst.height : ℤ) ≤ offY + imgY)]
      have hdim1 := @loopCols_dims body hdims offX imgY (offY + (imgY : ℤ)).toNat srcW 0 dst
      have hv := @loopCols_color_target body hdims hfoot offX imgY (offY + (imgY : ℤ)).toNat
        imgXt F W0 L0 (hval) srcW 0 dst hW hL (by omega) (by omega) hx0 hx1
      have hpres := @loopRows_color_preserve body hdims hfoot srcW offX offY fuel (imgY + 1)
        (loopCols body offX imgY (offY + (imgY : ℤ)).toNat srcW 0 dst)
        (offX + (imgXt : ℤ)).toNat (offY + (imgY : ℤ)).toNat
        (by rw [hdim1.1, hW]; omega) (by omega)
      rw [hpres, hv]
    · have hlt : imgY < imgYt := by omega
      by_cases hneg : offY + (imgY : ℤ) < 0
      · rw [if_pos hneg]
        exact ih (imgY + 1) dst hW hH hL (by omega) (by omega)
      · rw [if_neg hneg]
        rw [if_neg (by omega : ¬ (dst.height : ℤ) ≤ offY + imgY)]
        have hdim1 := @loopCols_dims body hdims offX imgY (offY + (imgY : ℤ)).toNat srcW 0 dst
        have hstep : (loopCols body offX imgY (offY + (imgY : ℤ)).toNat srcW 0 dst).color
            (offX + (imgXt : ℤ)).toNat (offY + (imgYt : ℤ)).toNat
            = dst.color (offX + (imgXt : ℤ)).toNat (offY + (imgYt : ℤ)).toNat :=
          @loopCols_color_preserve body hdims hfoot offX imgY (offY + (imgY : ℤ)).toNat
            srcW 0 dst (offX + (imgXt : ℤ)).toNat (offY + (imgYt : ℤ)).toNat
            (by omega) (Or.inl (by omega))
        exact (ih (imgY + 1) _ (hdim1.1.trans hW) (hdim1.2.1.trans hH) (hdim1.2.2.trans hL)
          (by omega) (by omega)).trans (by rw [hstep])

/-! ## Body instances for the three compositing loops -/

theorem blendBody_dims (src : Image) : BodyDims (blendBody src) := by
  intro d imgX imgY x y
  exact set_color_dims d x y _

theorem blendBody_foot (src : Image) : BodyFoot (blendBody src) := by
  intro d imgX imgY x y x' y' hx hx' hne
  exact color_set_color_ne d x y x' y' _ hx hx' hne

theorem overlayBody_dims (ov : Image) (m : Mask) : BodyDims (overlayBody ov m) := by
  intro d imgX imgY x y
  exact set_color_dims d x y _

theorem overlayBody_foot (ov : Image) (m : Mask) : BodyFoot (overlayBody ov m) := by
  intro d imgX imgY x y x' y' hx hx' hne
  exact color_set_color_ne d x y x' y' _ hx hx' hne

theorem maskBody_dims (m : Mask) : BodyDims (maskBody m) := by
  intro d imgX imgY x y
  refine ⟨rfl, rfl, ?_⟩
  simp [maskBody]

theorem maskBody_foot (m : Mask) : BodyFoot (maskBody m) := by
  intro d imgX imgY x y x' y' hx hx' hne
  have hpix : y * d.width + x ≠ y' * d.width + x' := pixel_index_ne hx hx' hne
  simp only [maskBody, Image.color, Image.xy_to_index]
  rw [getD_set_ne _ _ (by omega), getD_set_ne _ _ (by omega),
    getD_set_ne _ _ (by omega), getD_set_ne _ _ (by omega)]

/-- The alpha byte of a pixel colour read from an image whose alpha bytes
are all zero on the in-range pixels. -/
theorem color_alpha_of_alpha_zero (src : Image) (imgX imgY : ℕ)
    (hx : imgX < src.width) (hy : imgY < src.height)
    (hsrca : ∀ j, j < src.width * src.height → src.data.getD (4 * j + 3) 0 = 0) :
    (src.color imgX imgY).a = 0 := by
  simp only [Image.color, Image.xy_to_index]
  have hj := hsrca (imgY * src.width + imgX) (pix_lt hx hy)
  rw [show (imgY * src.width + imgX) * 4 + 3 = 4 * (imgY * src.width + imgX) + 3 by ring]
  exact hj

/-- C4 helper: with an all-transparent source every reachable blend leaves
the destination untouched. -/
theorem blendBody_id_of_transparent (src dst : Image) (imgX imgY x y : ℕ)
    (hx : imgX < src.width) (hy : imgY < src.height)
    (hdstb : ∀ b ∈ dst.data, b < 256)
    (hsrca : ∀ j, j < src.width * src.height → src.data.getD (4 * j + 3) 0 = 0) :
    blendBody src dst imgX imgY x y = dst := by
  unfold blendBody
  have hsa : (src.color imgX imgY).a = 0 := color_alpha_of_alpha_zero src imgX imgY hx hy hsrca
  have hua : (dst.color x y).a < 256 := by
    simp only [Image.color]
    exact getD_lt_256 _ hdstb _
  rw [mix_transparent _ _ hsa hua]
  exact set_color_self dst x y

/-- The nested loops touch nothing when the source rectangle lies fully
outside the destination on either axis. -/
theorem loops_outside {body : Image → ℕ → ℕ → ℕ → ℕ → Image} (srcW srcH : ℕ)
    (offX offY : ℤ) (dst : Image)
    (h : offX + (srcW : ℤ) ≤ 0 ∨ (dst.width : ℤ) ≤ offX ∨
      offY + (srcH : ℤ) ≤ 0 ∨ (dst.height : ℤ) ≤ offY) :
    loopRows body srcW offX offY srcH 0 dst = dst := by
  rcases h with h | h | h | h
  · apply loopRows_cols_id
    intro imgY' y' h1 h2
    exact loopCols_all_neg srcW 0 dst (by push_cast; omega)
  · apply loopRows_cols_id
    intro imgY' y' h1 h2
    exact loopCols_x_overflow srcW 0 dst (by push_cast; omega) (by push_cast; omega)
  · exact loopRows_all_neg srcH 0 dst (by push_cast; omega)
  · exact loopRows_y_overflow srcH 0 dst (by push_cast; omega) (by push_cast; omega)

/-! ## The claims -/

/-- C4: for every destination and every source all of whose pixels have
alpha 0, `draw_img` at any offset leaves every byte of the destination
buffer (all four channels of every pixel, the recomputed alpha included)
exactly unchanged.  Destination bytes are required to be bytes (< 256), as
`u8` guarantees in Rust. -/
theorem c4_draw_img_transparent_id (dst src : Image) (offX offY : ℤ)
    (hdstb : ∀ b ∈ dst.data, b < 256)
    (hsrca : ∀ j, j < src.width * src.height → src.data.getD (4 * j + 3) 0 = 0) :
    dst.draw_img src offX offY = dst := by
  unfold Image.draw_img
  apply loopRows_id
  intro imgX' imgY' x' y' hxs hy1 hy2
  exact blendBody_id_of_transparent src dst imgX' imgY' x' y' hxs (by omega) hdstb hsrca

/-- Witness for C4 at a concrete input. -/
theorem c4_witness :
    Image.draw_img ⟨1, 1, [10, 20, 30, 40]⟩ ⟨1, 1, [5, 6, 7, 0]⟩ 0 0 = ⟨1, 1, [10, 20, 30, 40]⟩ :=
  c4_draw_img_transparent_id ⟨1, 1, [10, 20, 30, 40]⟩ ⟨1, 1, [5, 6, 7, 0]⟩ 0 0
    (by decide) (fun j hj => by
      have h0 : j = 0 := by simpa using hj
      subst h0
      rfl)

/-- C6: a source image or mask placed fully outside the destination on
either axis (fully negative, or at-or-beyond the destination edge) leaves
the destination buffer byte-for-byte unchanged — `draw_img` and `mask` skip
every pixel, so no write (and no out-of-bounds index) happens and nothing
can panic. -/
theorem c6_out_of_bounds_noop (dst src : Image) (m : Mask) (offX offY : ℤ)
    (hsrc : offX + (src.width : ℤ) ≤ 0 ∨ (dst.width : ℤ) ≤ offX ∨
      offY + (src.height : ℤ) ≤ 0 ∨ (dst.height : ℤ) ≤ offY)
    (hm : offX + (m.width : ℤ) ≤ 0 ∨ (dst.width : ℤ) ≤ offX ∨
      offY + (m.height : ℤ) ≤ 0 ∨ (dst.height : ℤ) ≤ offY) :
    dst.draw_img src offX offY = dst ∧ dst.mask m offX offY = dst :=
  ⟨loops_outside src.width src.height offX offY dst hsrc,
    loops_outside m.width m.height offX offY dst hm⟩

/-- Witness for C6 at a concrete input (offset beyond the right edge). -/
theorem c6_witness :
    Image.draw_img ⟨1, 1, [1, 2, 3, 4]⟩ ⟨1, 1, [9, 9, 9, 9]⟩ 5 0 = ⟨1, 1, [1, 2, 3, 4]⟩ ∧
      Image.mask ⟨1, 1, [1, 2, 3, 4]⟩ ⟨1, 1, [7]⟩ 5 0 = ⟨1, 1, [1, 2, 3, 4]⟩ :=
  c6_out_of_bounds_noop ⟨1, 1, [1, 2, 3, 4]⟩ ⟨1, 1, [9, 9, 9, 9]⟩ ⟨1, 1, [7]⟩ 5 0
    (by decide) (by decide)

/-- C9: `Color::new` takes its arguments in the order `(r, b, g, a)` — the
second argument lands in the blue field and the third in the green field —
so `GREEN` is actually `(r 0, g 0, b 255)` and `BLUE` is `(r 0, g 255, b 0)`,
while tuple conversion assigns true `r, g, b` order. -/
theorem c9_color_new_swapped :
    (∀ r b g a : ℕ, (Color.new r b g a).r = r ∧ (Color.new r b g a).b = b ∧
      (Color.new r b g a).g = g ∧ (Color.new r b g a).a = a) ∧
    Color.GREEN = { r := 0, g := 0, b := 255, a := 255 } ∧
    Color.BLUE = { r := 0, g := 255, b := 0, a := 255 } ∧
    (∀ r g b : ℕ, Color.fromRGB (r, g, b) = { r := r, g := g, b := b, a := 255 }) :=
  ⟨fun _ _ _ _ => ⟨rfl, rfl, rfl, rfl⟩, rfl, rfl, fun _ _ _ => rfl⟩

/-- C8: `Display` followed by `FromStr` round-trips for every named
`FontWeight` and `FontStyle`, hence every `FontVariant` formatted as
`"weight style"` parses back (via the cache-filename parser) to the same
`(weight, style)` pair. -/
theorem c8_variant_display_roundtrip :
    (∀ w : FontWeight, FontWeight.fromStr w.display = some w) ∧
    (∀ st : FontStyle, FontStyle.fromStr st.display = some st) ∧
    (∀ v : FontVariant, parseVariantText v.display = some v) := by
  refine ⟨?_, ?_, ?_⟩
  · intro w
    cases w <;> decide
  · intro st
    cases st <;> decide
  · intro v
    obtain ⟨w, st⟩ := v
    cases w <;> cases st <;> decide

/-- C2 (code bug): in aspect-ratio-driven sizing, when the computed needed
padding on the grown axis is smaller than the flat padding, the code
computes `needed_padding - self.padding` on `usize`, which underflows
(wraps in release builds, panics in debug builds) instead of clamping.  At
layout 10×100, flat padding 20 and target aspect 1/8, the needed padding is
5 < 20 and the vertical pad becomes `2^64 - 15`. -/
theorem c2_padding_underflow :
    make_image_pads (qmk 10 1) (qmk 100 1) 20 (some (qmk 1 8)) = (5, 2 ^ 64 - 15) := by
  decide

/-- The alpha byte of a pixel colour read from an image whose alpha bytes
are all 255 on the in-range pixels. -/
theorem color_alpha_of_alpha_full (src : Image) (imgX imgY : ℕ)
    (hx : imgX < src.width) (hy : imgY < src.height)
    (hsrca : ∀ j, j < src.width * src.height → src.data.getD (4 * j + 3) 0 = 255) :
    (src.color imgX imgY).a = 255 := by
  simp only [Image.color, Image.xy_to_index]
  have hj := hsrca (imgY * src.width + imgX) (pix_lt hx hy)
  rw [show (imgY * src.width + imgX) * 4 + 3 = 4 * (imgY * src.width + imgX) + 3 by ring]
  exact hj

/-- An in-range pixel's write index stays inside a well-formed buffer. -/
theorem write_index_lt (d : Image) (x y W H : ℕ) (hw : d.width = W)
    (hl : d.data.length = 4 * (W * H)) (hx : x < W) (hy : y < H) :
    d.xy_to_index x y + 3 < d.data.length := by
  have hp := pix_lt hx hy
  simp only [Image.xy_to_index, hw, hl]
  omega

/-- C5: drawing a fully opaque source (`a = 255` at every pixel, bytes
being bytes) sets every covered in-bounds destination pixel exactly to the
source pixel's RGB with alpha 255, whatever the destination held — the
float normalization, mixing and truncation round-trip exactly. -/
theorem c5_draw_img_opaque_replaces (dst src : Image) (offX offY : ℤ) (imgX imgY : ℕ)
    (hlen : dst.data.length = 4 * (dst.width * dst.height))
    (hsrcb : ∀ b ∈ src.data, b < 256)
    (hsrca : ∀ j, j < src.width * src.height → src.data.getD (4 * j + 3) 0 = 255)
    (hx : imgX < src.width) (hy : imgY < src.height)
    (hx0 : 0 ≤ offX + (imgX : ℤ)) (hx1 : offX + (imgX : ℤ) < dst.width)
    (hy0 : 0 ≤ offY + (imgY : ℤ)) (hy1 : offY + (imgY : ℤ) < dst.height) :
    (dst.draw_img src offX offY).color (offX + (imgX : ℤ)).toNat (offY + (imgY : ℤ)).toNat
      = { r := (src.color imgX imgY).r, g := (src.color imgX imgY).g,
          b := (src.color imgX imgY).b, a := 255 } := by
  unfold Image.draw_img
  have halpha : (src.color imgX imgY).a = 255 :=
    color_alpha_of_alpha_full src imgX imgY hx hy hsrca
  have hch : ∀ i : ℕ, src.data.getD i 0 < 256 := getD_lt_256 _ hsrcb
  have hval : ∀ d : Image, d.width = dst.width → d.data.length = dst.data.length →
      (blendBody src d imgX imgY (offX + (imgX : ℤ)).toNat (offY + (imgY : ℤ)).toNat).color
          (offX + (imgX : ℤ)).toNat (offY + (imgY : ℤ)).toNat
        = Color.mk (src.color imgX imgY).r (src.color imgX imgY).g
            (src.color imgX imgY).b 255 := by
    intro d hw hl
    unfold blendBody
    rw [color_set_color_self d _ _ _ (write_index_lt d _ _ dst.width dst.height hw
      (by rw [hl, hlen]) (by omega) (by omega))]
    exact mixFullAlpha _ _ halpha (by simp only [Image.color]; exact hch _)
      (by simp only [Image.color]; exact hch _) (by simp only [Image.color]; exact hch _)
  exact loopRows_color_target (blendBody_dims src) (blendBody_foot src) imgX imgY
    (fun _ => Color.mk (src.color imgX imgY).r (src.color imgX imgY).g
      (src.color imgX imgY).b 255)
    dst.width dst.height dst.data.length hval src.height 0 dst rfl rfl rfl
    (Nat.zero_le _) (by omega) hx hx0 hx1 hy0 hy1

/-- Witness for C5 at a concrete input: an opaque 1×1 source pasted onto a
1×1 destination with a partially transparent pixel. -/
theorem c5_witness :
    (Image.draw_img ⟨1, 1, [10, 20, 30, 40]⟩ ⟨1, 1, [5, 6, 7, 255]⟩ 0 0).color 0 0
      = { r := 5, g := 6, b := 7, a := 255 } := by
  have h := c5_draw_img_opaque_replaces ⟨1, 1, [10, 20, 30, 40]⟩ ⟨1, 1, [5, 6, 7, 255]⟩ 0 0 0 0
    (by decide) (by decide)
    (fun j hj => by
      have h0 : j = 0 := by simpa using hj
      subst h0
      rfl)
    (by decide) (by decide) (by decide) (by decide) (by decide) (by decide)
  simpa using h

/-- C7: `overlay` with mismatched image/mask dimensions returns without
mutating the destination (no write, no out-of-bounds read, no panic); with
matching dimensions, each covered in-bounds pixel becomes the source-over
mix of the destination pixel with the overlay pixel whose alpha was
replaced by `255 - mask value`. -/
theorem c7_overlay_guard_and_mix :
    (∀ (dst ov : Image) (m : Mask) (offX offY : ℤ),
      (ov.width ≠ m.width ∨ ov.height ≠ m.height) → dst.overlay ov m offX offY = dst) ∧
    (∀ (dst ov : Image) (m : Mask) (offX offY : ℤ) (imgX imgY : ℕ),
      ov.width = m.width → ov.height = m.height →
      dst.data.length = 4 * (dst.width * dst.height) →
      imgX < ov.width → imgY < ov.height →
      0 ≤ offX + (imgX : ℤ) → offX + (imgX : ℤ) < dst.width →
      0 ≤ offY + (imgY : ℤ) → offY + (imgY : ℤ) < dst.height →
      (dst.overlay ov m offX offY).color (offX + (imgX : ℤ)).toNat (offY + (imgY : ℤ)).toNat
        = Image.mix (dst.color (offX + (imgX : ℤ)).toNat (offY + (imgY : ℤ)).toNat)
            { ov.color imgX imgY with a := 255 - m.data.getD (imgY * m.width + imgX) 0 }) := by
  constructor
  · intro dst ov m offX offY h
    unfold Image.overlay
    rw [if_pos h]
  · intro dst ov m offX offY imgX imgY hwm hhm hlen hx hy hx0 hx1 hy0 hy1
    unfold Image.overlay
    rw [if_neg (by push_neg; exact ⟨hwm, hhm⟩)]
    have hval : ∀ d : Image, d.width = dst.width → d.data.length = dst.data.length →
        (overlayBody ov m d imgX imgY (offX + (imgX : ℤ)).toNat (offY + (imgY : ℤ)).toNat).color
            (offX + (imgX : ℤ)).toNat (offY + (imgY : ℤ)).toNat
          = Image.mix (d.color (offX + (imgX : ℤ)).toNat (offY + (imgY : ℤ)).toNat)
              { ov.color imgX imgY with a := 255 - m.data.getD (imgY * m.width + imgX) 0 } := by
      intro d hw hl
      unfold overlayBody
      rw [color_set_color_self d _ _ _ (write_index_lt d _ _ dst.width dst.height hw
        (by rw [hl, hlen]) (by omega) (by omega))]
    exact loopRows_color_target (overlayBody_dims ov m) (overlayBody_foot ov m) imgX imgY
      (fun under => Image.mix under
        { ov.color imgX imgY with a := 255 - m.data.getD (imgY * m.width + imgX) 0 })
      dst.width dst.height dst.data.length hval ov.height 0 dst rfl rfl rfl
      (Nat.zero_le _) (by omega) hx hx0 hx1 hy0 hy1

/-- Witness for C7: the mismatch guard fires on a 1×1 image with a 2×1
mask, and the matching case computes the masked mix on a 1×1 overlay. -/
theorem c7_witness :
    Image.overlay ⟨1, 1, [1, 2, 3, 4]⟩ ⟨1, 1, [9, 9, 9, 9]⟩ ⟨2, 1, [7, 7]⟩ 0 0
        = ⟨1, 1, [1, 2, 3, 4]⟩ ∧
      (Image.overlay ⟨1, 1, [1, 2, 3, 4]⟩ ⟨1, 1, [9, 9, 9, 9]⟩ ⟨1, 1, [7]⟩ 0 0).color 0 0
        = Image.mix ((⟨1, 1, [1, 2, 3, 4]⟩ : Image).color 0 0)
            { (⟨1, 1, [9, 9, 9, 9]⟩ : Image).color 0 0 with a := 255 - 7 } := by
  constructor
  · exact c7_overlay_guard_and_mix.1 ⟨1, 1, [1, 2, 3, 4]⟩ ⟨1, 1, [9, 9, 9, 9]⟩ ⟨2, 1, [7, 7]⟩
      0 0 (by decide)
  · have h := c7_overlay_guard_and_mix.2 ⟨1, 1, [1, 2, 3, 4]⟩ ⟨1, 1, [9, 9, 9, 9]⟩ ⟨1, 1, [7]⟩
      0 0 0 0 (by decide) (by decide) (by decide) (by decide) (by decide) (by decide)
      (by decide) (by decide) (by decide)
    simpa using h

/-! ## Exactness of `fl` on representable values -/

theorem nlog2Aux_spec : ∀ fuel n : ℕ, 1 ≤ n → n ≤ fuel →
    2 ^ nlog2Aux fuel n ≤ n ∧ n < 2 ^ (nlog2Aux fuel n + 1) := by
  intro fuel
  induction fuel with
  | zero => intro n h1 h2; omega
  | succ fuel ih =>
    intro n h1 h2
    simp only [nlog2Aux]
    split
    · next h =>
      have hn : n = 1 := by omega
      subst hn
      norm_num
    · next h =>
      have h2' : n / 2 ≤ fuel := by omega
      have h1' : 1 ≤ n / 2 := by omega
      obtain ⟨ha, hb⟩ := ih (n / 2) h1' h2'
      constructor
      · calc 2 ^ (nlog2Aux fuel (n / 2) + 1) = 2 * 2 ^ nlog2Aux fuel (n / 2) := by ring
        _ ≤ n := by omega
      · calc n < 2 * 2 ^ (nlog2Aux fuel (n / 2) + 1) := by omega
        _ = 2 ^ (nlog2Aux fuel (n / 2) + 1 + 1) := by ring

theorem nlog2_spec (n : ℕ) (h : 1 ≤ n) : 2 ^ nlog2 n ≤ n ∧ n < 2 ^ (nlog2 n + 1) :=
  nlog2Aux_spec n n h le_rfl

/-- Bracketing property of `qexp`: it computes the floor binary logarithm
of a positive rational. -/
theorem qexp_spec (q : ℚ) (hq : 0 < q) :
    (2 : ℚ) ^ qexp q ≤ q ∧ q < (2 : ℚ) ^ (qexp q + 1) := by
  have hnum : 0 < q.num := Rat.num_pos.mpr hq
  have hden : 0 < q.den := q.pos
  obtain ⟨ha1, ha2⟩ := nlog2_spec q.num.toNat (by omega)
  obtain ⟨hb1, hb2⟩ := nlog2_spec q.den hden
  have hqd : q = (q.num : ℚ) / (q.den : ℚ) := (Rat.num_div_den q).symm
  have hdq : (0 : ℚ) < (q.den : ℚ) := by exact_mod_cast hden
  have hnq : (0 : ℚ) < (q.num : ℚ) := by exact_mod_cast hnum
  set a : ℕ := nlog2 q.num.toNat with hadef
  set b : ℕ := nlog2 q.den with hbdef
  have htn : ((q.num.toNat : ℕ) : ℚ) = (q.num : ℚ) := by
    exact_mod_cast congrArg (fun z : ℤ => (z : ℚ)) (Int.toNat_of_nonneg hnum.le)
  have ha1' : (2 : ℚ) ^ (a : ℤ) ≤ (q.num : ℚ) := by
    rw [zpow_natCast, ← htn]
    exact_mod_cast ha1
  have ha2' : (q.num : ℚ) < (2 : ℚ) ^ ((a : ℤ) + 1) := by
    rw [show ((a : ℤ) + 1) = ((a + 1 : ℕ) : ℤ) by push_cast; ring, zpow_natCast, ← htn]
    exact_mod_cast ha2
  have hb1' : (2 : ℚ) ^ (b : ℤ) ≤ (q.den : ℚ) := by
    rw [zpow_natCast]
    exact_mod_cast hb1
  have hb2' : (q.den : ℚ) < (2 : ℚ) ^ ((b : ℤ) + 1) := by
    rw [show ((b : ℤ) + 1) = ((b + 1 : ℕ) : ℤ) by push_cast; ring, zpow_natCast]
    exact_mod_cast hb2
  have bound_low : (2 : ℚ) ^ ((a : ℤ) - b - 1) < q := by
    have heq : (2 : ℚ) ^ ((a : ℤ) - b - 1) = (2 : ℚ) ^ (a : ℤ) / (2 : ℚ) ^ ((b : ℤ) + 1) := by
      rw [← zpow_sub₀ (by norm_num : (2 : ℚ) ≠ 0)]
      ring_nf
    rw [heq, hqd]
    calc (2 : ℚ) ^ (a : ℤ) / (2 : ℚ) ^ ((b : ℤ) + 1) ≤ (q.num : ℚ) / (2 : ℚ) ^ ((b : ℤ) + 1) :=
      (div_le_div_right (by positivity)).mpr ha1'
    _ < (q.num : ℚ) / (q.den : ℚ) := (div_lt_div_left hnq (by positivity) hdq).mpr hb2'
  have bound_high : q < (2 : ℚ) ^ ((a : ℤ) - b + 1) := by
    have heq : (2 : ℚ) ^ ((a : ℤ) - b + 1) = (2 : ℚ) ^ ((a : ℤ) + 1) / (2 : ℚ) ^ (b : ℤ) := by
      rw [← zpow_sub₀ (by norm_num : (2 : ℚ) ≠ 0)]
      ring_nf
    rw [heq, hqd]
    calc (q.num : ℚ) / (q.den : ℚ) < (2 : ℚ) ^ ((a : ℤ) + 1) / (q.den : ℚ) :=
      (div_lt_div_right hdq).mpr ha2'
    _ ≤ (2 : ℚ) ^ ((a : ℤ) + 1) / (2 : ℚ) ^ (b : ℤ) :=
      (div_le_div_left (by positivity) hdq (by positivity)).mpr hb1'
  simp only [qexp, qpow2_eq]
  rw [← hadef, ← hbdef]
  split_ifs with h1 h2
  · exact ⟨bound_low.le, by rw [sub_add_cancel]; exact h1⟩
  · exact absurd bound_high (not_lt.mpr h2)
  · exact ⟨not_lt.mp h1, not_le.mp h2⟩

/-- Model of `qexp` is determined by any valid bracketing. -/
theorem qexp_unique (q : ℚ) (hq : 0 < q) (z : ℤ)
    (h1 : (2 : ℚ) ^ z ≤ q) (h2 : q < (2 : ℚ) ^ (z + 1)) : qexp q = z := by
  obtain ⟨g1, g2⟩ := qexp_spec q hq
  by_contra hne
  rcases lt_or_gt_of_ne hne with hlt | hgt
  · have hb : (2 : ℚ) ^ (qexp q + 1) ≤ 2 ^ z :=
      zpow_le_zpow_right₀ (by norm_num) (by omega)
    linarith
  · have hb : (2 : ℚ) ^ (z + 1) ≤ 2 ^ qexp q :=
      zpow_le_zpow_right₀ (by norm_num) (by omega)
    linarith

/-- Model of `rne` is the identity on integers. -/
theorem rne_intCast (n : ℤ) : rne ((n : ℤ) : ℚ) = n := by
  have hfrac : qsub ((n : ℤ) : ℚ) (qmk (qfloor ((n : ℤ) : ℚ)) 1) = 0 := by
    rw [qsub_eq, qmk_eq, qfloor_eq, Int.floor_intCast]
    norm_num
  simp only [rne]
  rw [hfrac]
  rw [if_pos (by rw [qmk_eq]; norm_num : (0 : ℚ) < qmk 1 2)]
  rw [qfloor_eq, Int.floor_intCast]

/-- The rounding `fl` commutes with negation. -/
theorem fl_neg (q : ℚ) : fl (-q) = -fl q := by
  unfold fl
  by_cases h0 : q = 0
  · subst h0
    norm_num
  · rw [if_neg (by simpa using h0), if_neg h0]
    rcases lt_trichotomy q 0 with h | h | h
    · rw [if_pos (by linarith), if_neg (not_lt.mpr h.le), neg_neg]
    · exact absurd h h0
    · rw [if_neg (by linarith), if_pos h, neg_neg]

/-- The rounding `fl` is exact on representable nonneg values `m * 2^E`, `m < 2^24`. -/
theorem fl_fix_pos (m : ℕ) (E : ℤ) (h0 : 0 < m) (hm : m < 2 ^ 24) :
    fl ((m : ℚ) * 2 ^ E) = (m : ℚ) * 2 ^ E := by
  set q : ℚ := (m : ℚ) * 2 ^ E with hqdef
  have hq : 0 < q := by
    apply mul_pos _ (by positivity)
    exact_mod_cast h0
  have hbr := qexp_spec q hq
  set e := qexp q with hedef
  have hstep1 : (m : ℚ) * 2 ^ E < ((2 ^ 24 : ℕ) : ℚ) * 2 ^ E := by
    apply mul_lt_mul_of_pos_right _ (by positivity)
    exact_mod_cast hm
  have hstep2 : ((2 ^ 24 : ℕ) : ℚ) * 2 ^ E = 2 ^ (E + 24) := by
    rw [zpow_add₀ (by norm_num : (2 : ℚ) ≠ 0), show ((2 : ℚ) ^ (24 : ℤ)) = ((2 ^ 24 : ℕ) : ℚ) by norm_num]
    ring_nf
  have hlt : q < 2 ^ (E + 24) := by
    rw [hqdef]
    exact hstep1.trans_eq hstep2
  have heE : e ≤ E + 23 := by
    have h2 : (2 : ℚ) ^ e < 2 ^ (E + 24) := lt_of_le_of_lt hbr.1 hlt
    have h3 := (zpow_lt_zpow_iff_right₀ (by norm_num : (1 : ℚ) < 2)).mp h2
    omega
  have hge : (2 : ℚ) ^ E ≤ q := by
    rw [hqdef]
    calc (2 : ℚ) ^ E = 1 * 2 ^ E := by ring
    _ ≤ (m : ℚ) * 2 ^ E := by
      apply mul_le_mul_of_nonneg_right _ (by positivity)
      exact_mod_cast h0
  have heE2 : E ≤ e := by
    have h2 : (2 : ℚ) ^ E < 2 ^ (e + 1) := lt_of_le_of_lt hge hbr.2
    have h3 := (zpow_lt_zpow_iff_right₀ (by norm_num : (1 : ℚ) < 2)).mp h2
    omega
  rw [fl, if_neg hq.ne', if_pos hq]
  simp only [flPos]
  rw [← hedef]
  have hk : (0 : ℤ) ≤ E + 23 - e := by omega
  have hpow : ((2 : ℚ) ^ ((E + 23 - e).toNat : ℕ)) = (2 : ℚ) ^ (E + 23 - e) := by
    rw [← zpow_natCast (2 : ℚ) (E + 23 - e).toNat, Int.toNat_of_nonneg hk]
  have hin : qmul q (qpow2 (23 - e)) = (((m * 2 ^ (E + 23 - e).toNat : ℕ) : ℤ) : ℚ) := by
    rw [qmul_eq, qpow2_eq, hqdef]
    push_cast
    rw [hpow, mul_assoc, ← zpow_add₀ (by norm_num : (2 : ℚ) ≠ 0)]
    ring_nf
  rw [hin, rne_intCast]
  rw [qmul_eq, qmk_eq, qpow2_eq]
  push_cast
  rw [hpow, div_one, mul_assoc, ← zpow_add₀ (by norm_num : (2 : ℚ) ≠ 0)]
  ring_nf

/-- The rounding `fl` is exact on every representable value `n * 2^E`, `|n| < 2^24`. -/
theorem fl_fix (n : ℤ) (E : ℤ) (hm : n.natAbs < 2 ^ 24) :
    fl ((n : ℚ) * 2 ^ E) = (n : ℚ) * 2 ^ E := by
  rcases lt_trichotomy n 0 with h | h | h
  · have heq : ((n : ℤ) : ℚ) * 2 ^ E = -(((n.natAbs : ℕ) : ℚ) * 2 ^ E) := by
      have hcast : ((n.natAbs : ℕ) : ℚ) = -((n : ℤ) : ℚ) := by
        push_cast [Int.cast_natAbs]
        exact abs_of_nonpos (by exact_mod_cast h.le : ((n : ℤ) : ℚ) ≤ 0)
      rw [hcast]
      ring
    rw [heq, fl_neg, fl_fix_pos n.natAbs E (by omega) hm]
  · subst h
    norm_num
    rw [fl]
    norm_num
  · have heq : ((n : ℤ) : ℚ) = ((n.toNat : ℕ) : ℚ) := by
      exact_mod_cast (congrArg (fun z : ℤ => (z : ℚ)) (Int.toNat_of_nonneg h.le)).symm
    rw [heq]
    exact fl_fix_pos n.toNat E (by omega) (by omega)

/-- C10 helper: a fontsize (a representable f32) below 8 makes the built-in
patterns' stripe width `(fontsize / 8.0) as usize` equal to zero. -/
theorem patternStripeWidth_zero (n E : ℤ) (hm : n.natAbs < 2 ^ 24)
    (hlt : ((n : ℚ) * 2 ^ E) < 8) : patternStripeWidth ((n : ℚ) * 2 ^ E) = 0 := by
  unfold patternStripeWidth
  have h38 : ((2 : ℚ) ^ (3 : ℤ)) = 8 := by norm_num
  have hdiv : qdiv ((n : ℚ) * 2 ^ E) (qmk 8 1) = (n : ℚ) * 2 ^ (E - 3) := by
    rw [qdiv_eq, qmk_eq, zpow_sub₀ (by norm_num : (2 : ℚ) ≠ 0), h38]
    push_cast
    ring
  rw [hdiv, fl_fix n (E - 3) hm]
  unfold f32toUsize
  have hv : (n : ℚ) * 2 ^ (E - 3) < 1 := by
    have heq : (n : ℚ) * 2 ^ (E - 3) = ((n : ℚ) * 2 ^ E) / 8 := by
      rw [zpow_sub₀ (by norm_num : (2 : ℚ) ≠ 0), h38]
      ring
    rw [heq]
    linarith
  have h1 : qfloor ((n : ℚ) * 2 ^ (E - 3)) < 1 := by
    rw [qfloor_eq, Int.floor_lt]
    exact_mod_cast hv
  have h2 := Int.toNat_of_nonpos (by omega : qfloor ((n : ℚ) * 2 ^ (E - 3)) ≤ 0)
  omega

/-- C10: `Stripes::color_at` is total only when `stripe_width > 0` and the
colour list is nonempty — it divides by `stripe_width` and reduces modulo
`colors.len()`, so it panics (modelled by `none`) when either is violated —
and the built-in flag patterns set `stripe_width = (fontsize / 8.0) as
usize`, which is 0 for every f32 fontsize below 8, so every pattern fill at
such sizes panics at the first `color_at` call. -/
theorem c10_stripes_panics :
    (∀ (s : Stripes) (x y : ℕ), s.stripe_width = 0 ∨ s.colors = [] → s.color_at x y = none) ∧
    (∀ (s : Stripes) (x y : ℕ), s.stripe_width ≠ 0 → s.colors ≠ [] →
      (s.color_at x y).isSome) ∧
    (∀ n E : ℤ, n.natAbs < 2 ^ 24 → ((n : ℚ) * 2 ^ E) < 8 →
      patternStripeWidth ((n : ℚ) * 2 ^ E) = 0) ∧
    (∀ (n E : ℤ) (nm : String) (st : Stripes), n.natAbs < 2 ^ 24 →
      ((n : ℚ) * 2 ^ E) < 8 → Operation.pattern ((n : ℚ) * 2 ^ E) nm = some st →
      st.stripe_width = 0 ∧ ∀ x y, st.color_at x y = none) := by
  have part1 : ∀ (s : Stripes) (x y : ℕ), s.stripe_width = 0 ∨ s.colors = [] →
      s.color_at x y = none := by
    intro s x y h
    rcases h with h | h
    · rw [Stripes.color_at, if_pos h]
    · rw [Stripes.color_at]
      by_cases hsw : s.stripe_width = 0
      · rw [if_pos hsw]
      · rw [if_neg hsw, if_pos (by rw [h]; rfl)]
  refine ⟨part1, ?_, patternStripeWidth_zero, ?_⟩
  · intro s x y h1 h2
    rw [Stripes.color_at, if_neg h1,
      if_neg (fun hh => h2 (List.length_eq_zero.mp hh))]
    rfl
  · intro n E nm st hm hlt hsome
    unfold Operation.pattern at hsome
    have hsw : st.stripe_width = 0 := by
      split_ifs at hsome
      · rw [← Option.some.inj hsome]
        exact patternStripeWidth_zero n E hm hlt
      · rw [← Option.some.inj hsome]
        exact patternStripeWidth_zero n E hm hlt
      · rw [← Option.some.inj hsome]
        exact patternStripeWidth_zero n E hm hlt
    exact ⟨hsw, fun x y => part1 st x y (Or.inl hsw)⟩

/-- Witness for C10 at concrete inputs: a zero stripe width panics, and
fontsize 4 (below 8) yields stripe width 0. -/
theorem c10_witness :
    Stripes.color_at ⟨[Color.WHITE], 0, qmk 2 1⟩ 3 4 = none ∧
      (Stripes.color_at ⟨[Color.WHITE], 1, qmk 2 1⟩ 3 4).isSome ∧
      patternStripeWidth (((4 : ℤ) : ℚ) * 2 ^ (0 : ℤ)) = 0 :=
  ⟨c10_stripes_panics.1 ⟨[Color.WHITE], 0, qmk 2 1⟩ 3 4 (Or.inl rfl),
    c10_stripes_panics.2.1 ⟨[Color.WHITE], 1, qmk 2 1⟩ 3 4 (by decide) (by decide),
    c10_stripes_panics.2.2.1 4 0 (by decide) (by rw [zpow_zero, mul_one]; norm_num)⟩

/-- C1 counterexample: with the cache and the catalog both empty (so the
requested family/variant is in neither), the main iteration's
`FontProvider::variant` does not fail — it returns the provider's built-in
default font, with no network fetch. -/
theorem c1_counterexample :
    FontProvider.variant p0main (fun _ => []) (fun _ => []) (fun _ => true) "Roboto"
      FontVariant.default = Except.ok (p0main.pdefault, p0main, []) := rfl

/-- C1 (amended): when `(family, variant)` is absent from both the cache
and the catalog, neither iteration fetches anything over the network; the
main iteration returns the built-in default font instead of an error, and
the fastly-backend iteration returns `None` (not found). -/
theorem c1_unknown_falls_back (p : FontProvider) (pf : FontProviderFB)
    (fs net : String → List ℕ) (writeOk : String → Bool) (family : String) (v : FontVariant)
    (hc : p.font_cache.variant fs family v = none)
    (hk : catalogHas p.fonts family v = false)
    (hcf : pf.font_cache.variant fs family v = none)
    (hkf : catalogHas pf.fonts family v = false) :
    FontProvider.variant p fs net writeOk family v = Except.ok (p.pdefault, p, []) ∧
    FontProviderFB.variant pf fs net writeOk family v = Except.ok (none, pf, []) := by
  constructor
  · unfold FontProvider.variant
    rw [hc]
    unfold catalogHas at hk
    cases hfam : findFamily p.fonts family with
    | none => rfl
    | some fam =>
      simp only [hfam] at hk
      have hvp : fam.variant_path v = none := by
        cases hvp2 : fam.variant_path v with
        | none => rfl
        | some u =>
          rw [hvp2] at hk
          simp at hk
      simp only [hvp]
  · unfold FontProviderFB.variant
    rw [hcf]
    unfold catalogHas at hkf
    cases hfam : findFamily pf.fonts family with
    | none => rfl
    | some fam =>
      simp only [hfam] at hkf
      have hvp : fam.variant_path v = none := by
        cases hvp2 : fam.variant_path v with
        | none => rfl
        | some u =>
          rw [hvp2] at hkf
          simp at hkf
      simp only [hvp]

/-- Witness for C1 at concrete inputs. -/
theorem c1_witness :
    FontProvider.variant p0main (fun _ => [0]) (fun _ => [0]) (fun _ => true) "Arial"
        FontVariant.default = Except.ok (p0main.pdefault, p0main, []) ∧
      FontProviderFB.variant pf0 (fun _ => [0]) (fun _ => [0]) (fun _ => true) "Arial"
        FontVariant.default = Except.ok (none, pf0, []) :=
  c1_unknown_falls_back p0main pf0 (fun _ => [0]) (fun _ => [0]) (fun _ => true) "Arial"
    FontVariant.default rfl rfl rfl rfl

/-- C3 counterexample: on a cache miss with a catalog hit, when persisting
the fetched bytes fails (`writeOk` false), the resolution call does not
return the fetched bytes — the `unwrap` in `save_font` panics and the call
aborts (`Except.error`), with the in-memory index untouched. -/
theorem c3_counterexample :
    FontProvider.variant p1main (fun _ => []) (fun _ => [7, 7]) (fun _ => false) "Fam"
      FontVariant.default = Except.error p1main := rfl

/-- C3 (amended): if the disk write in `save_font` fails, the whole
resolution call panics (`File::create(..).unwrap()` / `write_all(..)
.unwrap()`) instead of returning the fetched bytes; the panic happens
before the index update, so the provider state at the panic — carried by
`Except.error` — is exactly the unmodified provider: no partial in-memory
index entry is created. -/
theorem c3_cache_write_failure_panics (p : FontProvider) (fs net : String → List ℕ)
    (writeOk : String → Bool) (family : String) (v : FontVariant) (fam : FontFamily)
    (url : String)
    (hc : p.font_cache.variant fs family v = none)
    (hfam : findFamily p.fonts family = some fam)
    (hurl : fam.variant_path v = some url)
    (hw : writeOk (saveFontPath p.font_cache.location family v) = false) :
    FontProvider.variant p fs net writeOk family v = Except.error p := by
  unfold FontProvider.variant
  simp only [hc, hfam, hurl]
  unfold FontCache.save_font
  rw [if_neg (by rw [hw]; exact Bool.false_ne_true)]

/-- Witness for C3 at concrete inputs. -/
theorem c3_witness :
    FontProvider.variant p1main (fun _ => []) (fun _ => [7, 7]) (fun _ => false) "Fam"
      FontVariant.default = Except.error p1main :=
  c3_cache_write_failure_panics p1main (fun _ => []) (fun _ => [7, 7]) (fun _ => false)
    "Fam" FontVariant.default ⟨"Fam", [(FontVariant.default, "http://u")]⟩ "http://u"
    rfl rfl rfl rfl

end Textual
